import Mathlib

/-!
Verification development for the `uniswap-v3-math` swap engine.

The repository's source under `src/` contains three files: `swap.rs`
(exact integer swap loop over U256/I256), `f64_swap.rs` (floating-point
swap loop and step computation), and `lib.rs` (module list).  The helper
modules `tick_math`, `tick_bitmap`, `swap_math`, `liquidity_math` and
`error` are declared in `lib.rs` but their sources are not present;
where a definition below stands in for one of them its doc comment
starts with `Modelled from the spec:`.

Numeric embedding choices:
* `U256` / `u128` values are embedded as `ℕ`, `I256` / `i128` as `ℤ`.
  The `ethers`/`primitive-types` arithmetic used by `swap.rs` panics on
  overflow rather than wrapping, so the unbounded embedding agrees with
  every non-panicking execution.
* `f64` values are embedded as `ℚ`: the exact (real-number) semantics of
  the floating-point algorithm.  The two `f64` library routines whose
  values cannot be captured exactly (`powi` composed with `sqrt` on
  line 132 of `f64_swap.rs`) are abstracted as an explicit function
  parameter `P : ℤ → ℚ` giving the square-root price of a tick.
* Fallible operations return `Except UniErr`; the `.unwrap()` on the
  ticks-map lookup is modelled as an explicit `panic` outcome; the
  unbounded `loop` is modelled by a fuel-indexed interpreter with an
  explicit `outOfFuel` outcome.
-/

/-- Error kinds of the (missing) `error` module, as used by `swap.rs`.
`SplM`/`SpuM` are the price-limit-out-of-range errors, `SplC`/`SpuC` the
price-limit-not-beyond-current errors, plus the liquidity and tick
errors of the helper modules. -/
inductive UniErr where
  | SplM | SpuM | SplC | SpuC
  | LiquiditySub | LiquidityAdd
  | TickBound | MulDivOverflow
deriving DecidableEq, Repr

/-- Modelled from the spec: the protocol's global minimum tick
(`tick_math::MIN_TICK`, the canonical Uniswap V3 value). -/
def minTickConst : ℤ := -887272

/-- Modelled from the spec: the protocol's global maximum tick
(`tick_math::MAX_TICK`, the canonical Uniswap V3 value). -/
def maxTickConst : ℤ := 887272

/-- Modelled from the spec: the absolute minimum representable
square-root price (`tick_math::MIN_SQRT_RATIO`, the canonical Uniswap V3
value, the square-root price at `minTickConst`). -/
def minSqrtPriceX96 : ℕ := 4295128739

/-- Modelled from the spec: the absolute maximum representable
square-root price (`tick_math::MAX_SQRT_RATIO`, the canonical Uniswap V3
value). -/
def maxSqrtPriceX96 : ℕ := 1461446703485210103287273052203988822378723970342

/-- `TickInfo` of `swap.rs`: tick index, gross liquidity, net liquidity. -/
structure TickInfo where
  index : ℤ
  l_gross : ℕ
  l_net : ℤ
deriving DecidableEq, Repr

/-- The ticks map `HashMap<i32, TickInfo>`, embedded as an association
list (which keeps both `len` and lookup). -/
abbrev TickList := List (ℤ × TickInfo)

/-- The tick bitmap `HashMap<i16, U256>`, embedded as an association
list from word index to 256-bit word (as `ℕ`). -/
abbrev Bitmap := List (ℤ × ℕ)

/-- Word of the sparse bitmap at a word index; an absent word reads as
zero. -/
def wordAt (bm : Bitmap) (w : ℤ) : ℕ := (List.lookup w bm).getD 0

/-- Set bit positions of `w` that are `≤ b`, in increasing order. -/
def setBitsLE (w : ℕ) (b : ℕ) : List ℕ :=
  (List.range (b + 1)).filter (fun i => w.testBit i)

/-- Set bit positions of `w` in `[b, 255]`, in increasing order. -/
def setBitsGE (w : ℕ) (b : ℕ) : List ℕ :=
  ((List.range 256).drop b).filter (fun i => w.testBit i)

/-- Modelled from the spec: `tick_bitmap::next_initialized_tick_within_one_word`.
Ticks are compressed by the spacing (rounding toward negative infinity)
and bucketed 256 to a word.  Searching toward lower ticks starts at or
below the current tick; searching upward starts strictly beyond it.  If
no initialized tick remains in the word, the word's edge tick is
returned with `initialized = false`. -/
def nextInitializedTickWithinOneWord (bm : Bitmap) (tick : ℤ) (spacing : ℤ)
    (zeroForOne : Bool) : ℤ × Bool :=
  let compressed := Int.ediv tick spacing
  if zeroForOne then
    let wordPos := Int.ediv compressed 256
    let bitPos := (Int.emod compressed 256).toNat
    let w := wordAt bm wordPos
    match (setBitsLE w bitPos).getLast? with
    | some m => ((compressed - (bitPos - m : ℕ)) * spacing, true)
    | none => ((compressed - bitPos) * spacing, false)
  else
    let start := compressed + 1
    let wordPos := Int.ediv start 256
    let bitPos := (Int.emod start 256).toNat
    let w := wordAt bm wordPos
    match (setBitsGE w bitPos).head? with
    | some m => ((start + (m - bitPos : ℕ)) * spacing, true)
    | none => ((start + (255 - bitPos : ℕ)) * spacing, false)

/-- The clamp of the candidate boundary tick to the protocol's global
tick range (`swap.rs` lines 94–98, `f64_swap.rs` lines 127–131). -/
def clampTick (t : ℤ) : ℤ :=
  if t < minTickConst then minTickConst
  else if t > maxTickConst then maxTickConst
  else t

/-- Modelled from the spec: `liquidity_math::add_delta` adds a signed
delta to an unsigned `u128` liquidity, failing on underflow or on
exceeding the `u128` range. -/
def addDelta (l : ℕ) (d : ℤ) : Except UniErr ℕ :=
  if d < 0 then
    if l < (-d).toNat then .error .LiquiditySub else .ok (l - (-d).toNat)
  else
    if 2 ^ 128 ≤ l + d.toNat then .error .LiquidityAdd else .ok (l + d.toNat)

/-! ## The floating-point variant (`f64_swap.rs`), embedded over `ℚ` -/

/-- `Q96 = 2^96` (`f64_swap.rs` line 10). -/
def q96 : ℚ := 2 ^ 96

/-- `f64_swap.rs::get_amount0_delta`. -/
def get_amount0_delta (sqrt_price_lower sqrt_price_upper sqrt_l : ℚ) : ℚ :=
  sqrt_l * q96 * (sqrt_price_upper - sqrt_price_lower)
    / (sqrt_price_lower * sqrt_price_upper)

/-- `f64_swap.rs::get_amount1_delta`. -/
def get_amount1_delta (sqrt_price_lower sqrt_price_upper sqrt_l : ℚ) : ℚ :=
  sqrt_l * (sqrt_price_upper - sqrt_price_lower) / q96

/-- `f64_swap.rs::get_sqrt_price_from_input`. -/
def get_sqrt_price_from_input (zero_for_one : Bool) (amount_in sqrt_price_current sqrt_l : ℚ) : ℚ :=
  if zero_for_one then
    (sqrt_l * q96) * sqrt_price_current / (sqrt_l * q96 + amount_in * sqrt_price_current)
  else
    sqrt_price_current + amount_in * q96 / sqrt_l

/-- `f64_swap.rs::get_sqrt_price_from_output`. -/
def get_sqrt_price_from_output (zero_for_one : Bool) (amount_out sqrt_price_current sqrt_l : ℚ) : ℚ :=
  if zero_for_one then
    sqrt_price_current - amount_out * q96 / sqrt_l
  else
    (sqrt_l * q96) * sqrt_price_current / (sqrt_l * q96 - amount_out * sqrt_price_current)

/-- Return value of `f64_swap.rs::compute_swap_step`: new price,
amount in, amount out, fee, and the exhausted flag. -/
structure F64StepRes where
  next : ℚ
  amountIn : ℚ
  amountOut : ℚ
  feeAmount : ℚ
  exhausted : Bool
deriving DecidableEq, Repr

/-- First phase of `compute_swap_step` (lines 223–263): the candidate
next price, the phase-1 amount in / amount out, the `max` flag and the
`exhausted` flag. -/
def f64StepPhase1 (sqrt_p_current sqrt_p_target l amount_remaining fee_pips : ℚ) :
    ℚ × ℚ × ℚ × Bool × Bool :=
  let zero_for_one := sqrt_p_target ≤ sqrt_p_current
  if 0 ≤ amount_remaining then
    let amount_remaining_less_fee := amount_remaining * (1 - fee_pips)
    let amount_in :=
      if zero_for_one then get_amount0_delta sqrt_p_target sqrt_p_current l
      else get_amount1_delta sqrt_p_current sqrt_p_target l
    if amount_in ≤ amount_remaining_less_fee then
      (sqrt_p_target, amount_in, 0, true, false)
    else
      (get_sqrt_price_from_input zero_for_one amount_remaining_less_fee sqrt_p_current l,
        amount_in, 0, false, true)
  else
    let amount_out :=
      if zero_for_one then get_amount1_delta sqrt_p_target sqrt_p_current l
      else get_amount0_delta sqrt_p_current sqrt_p_target l
    if amount_out ≤ -amount_remaining then
      (sqrt_p_target, 0, amount_out, true, false)
    else
      (get_sqrt_price_from_output zero_for_one (-amount_remaining) sqrt_p_current l,
        0, amount_out, false, true)

/-- `f64_swap.rs::compute_swap_step` (lines 207–290): phase 1 chooses
the next price, then both amounts are recomputed for the final price
pair (skipping the amount that derived the price), the output is capped
in exact-output mode, and the fee is taken. -/
def f64ComputeSwapStep (sqrt_p_current sqrt_p_target l amount_remaining fee_pips : ℚ) :
    F64StepRes :=
  let zero_for_one := sqrt_p_target ≤ sqrt_p_current
  let exact_in := 0 ≤ amount_remaining
  let p1 := f64StepPhase1 sqrt_p_current sqrt_p_target l amount_remaining fee_pips
  let sqrt_p_next := p1.1
  let max := p1.2.2.2.1
  let exhausted := p1.2.2.2.2
  let amount_in :=
    if zero_for_one then
      if ¬max ∨ ¬exact_in then get_amount0_delta sqrt_p_next sqrt_p_current l else p1.2.1
    else
      if ¬max ∨ ¬exact_in then get_amount1_delta sqrt_p_current sqrt_p_next l else p1.2.1
  let amount_out :=
    if zero_for_one then
      if ¬max ∨ exact_in then get_amount1_delta sqrt_p_next sqrt_p_current l else p1.2.2.1
    else
      if ¬max ∨ exact_in then get_amount0_delta sqrt_p_current sqrt_p_next l else p1.2.2.1
  let amount_out := if ¬exact_in ∧ -amount_remaining < amount_out then -amount_remaining else amount_out
  let fee_amount :=
    if exact_in ∧ ¬max then amount_remaining - amount_in
    else amount_in * fee_pips / (1 - fee_pips)
  ⟨sqrt_p_next, amount_in, amount_out, fee_amount, exhausted⟩

/-- `f64_swap.rs::Slot0`. -/
structure Slot0F where
  sqrt_price : ℚ
  liquidity : ℕ
  tick : ℤ
deriving DecidableEq, Repr

/-- `f64_swap.rs::SwapState`, plus the loop-local `exhausted` flag of
`swap` (line 103), which the loop head reads and the step assigns. -/
structure F64State where
  rem : ℚ
  calcAmt : ℚ
  price : ℚ
  tick : ℤ
  liq : ℚ
  exhausted : Bool
deriving DecidableEq, Repr

/-- `f64_swap.rs::SwapResult`. -/
structure F64SwapResult where
  amount0_delta : ℚ
  amount1_delta : ℚ
  sqrt_price_after : ℚ
  liquidity_after : ℚ
  tick_after : ℤ
deriving DecidableEq, Repr

/-- Outcome of a single body execution of the f64 swap loop. -/
inductive F64BodyRes where
  | next : F64State → F64BodyRes
  | panic : F64BodyRes
deriving DecidableEq, Repr

/-- Outcome of the f64 swap loop / swap call. -/
inductive F64LoopOut where
  | done : F64State → F64LoopOut
  | panicked : F64LoopOut
  | outOfFuel : F64LoopOut
deriving DecidableEq, Repr

/-- Outcome of the full f64 `swap`. -/
inductive F64Out where
  | done : F64SwapResult → F64Out
  | panicked : F64Out
  | outOfFuel : F64Out
deriving DecidableEq, Repr

/-- The break conditions at the head of the f64 swap loop
(`f64_swap.rs` lines 104–118): exhausted, amount consumed, liquidity
gone, or price at/past the limit in the trade direction. -/
def f64Break (zeroForOne : Bool) (limit : ℚ) (s : F64State) : Prop :=
  s.exhausted = true ∨ s.rem = 0 ∨ s.liq ≤ 0 ∨
    (if zeroForOne then s.price ≤ limit else limit ≤ s.price)

instance (zfo : Bool) (limit : ℚ) (s : F64State) : Decidable (f64Break zfo limit s) := by
  unfold f64Break
  infer_instance

/-- One iteration of the f64 swap loop (`f64_swap.rs` lines 119–185):
boundary lookup, clamp, candidate price via `P`, target selection, step
computation, amount accounting, and the boundary-crossing update.  The
`.unwrap()` on the ticks-map lookup is the `panic` outcome. -/
def f64Body (P : ℤ → ℚ) (bm : Bitmap) (ticks : TickList) (spacing : ℤ)
    (zeroForOne : Bool) (limit : ℚ) (exactInput : Bool) (fee : ℚ)
    (s : F64State) : F64BodyRes :=
  let tb := nextInitializedTickWithinOneWord bm s.tick spacing zeroForOne
  let tickNext := clampTick tb.1
  let initialized := tb.2
  let bPrice := P tickNext
  let hitToLimit := if zeroForOne then bPrice < limit else limit < bPrice
  let target := if hitToLimit then limit else bPrice
  let r := f64ComputeSwapStep s.price target s.liq s.rem fee
  let rem' := if exactInput then s.rem - (r.amountIn + r.feeAmount) else s.rem + r.amountOut
  let calc' := if exactInput then s.calcAmt - r.amountOut else s.calcAmt + (r.amountIn + r.feeAmount)
  if r.next = bPrice then
    if initialized then
      match List.lookup tickNext ticks with
      | none => .panic
      | some ti =>
        let lnet := if zeroForOne then -ti.l_net else ti.l_net
        .next ⟨rem', calc', r.next, (if zeroForOne then tickNext - 1 else tickNext),
          s.liq + lnet, r.exhausted⟩
    else
      .next ⟨rem', calc', r.next, (if zeroForOne then tickNext - 1 else tickNext),
        s.liq, r.exhausted⟩
  else
    .next ⟨rem', calc', r.next, s.tick, s.liq, r.exhausted⟩

/-- The f64 swap loop, fuel-indexed: the break conditions are
re-evaluated before every iteration; fuel is consumed once per
executed iteration. -/
def f64Loop (P : ℤ → ℚ) (bm : Bitmap) (ticks : TickList) (spacing : ℤ)
    (zeroForOne : Bool) (limit : ℚ) (exactInput : Bool) (fee : ℚ) :
    ℕ → F64State → F64LoopOut
  | 0, s => if f64Break zeroForOne limit s then .done s else .outOfFuel
  | fuel + 1, s =>
    if f64Break zeroForOne limit s then .done s
    else
      match f64Body P bm ticks spacing zeroForOne limit exactInput fee s with
      | .panic => .panicked
      | .next s' => f64Loop P bm ticks spacing zeroForOne limit exactInput fee fuel s'

/-- `f64_swap.rs::swap` (lines 48–203): the empty-ticks special case,
decimal scaling of the specified amount, the loop, and the sign
assignment and rescaling of the two deltas. -/
def f64Swap (P : ℤ → ℚ) (ticks : TickList) (bm : Bitmap) (spacing : ℤ)
    (zeroForOne : Bool) (amountSpecified limit : ℚ) (slot0 : Slot0F)
    (fee f0 f1 : ℚ) (fuel : ℕ) : F64Out :=
  if ticks.length = 0 then .done ⟨0, 0, 0, 0, 0⟩
  else
    let exactInput : Bool := decide (0 < amountSpecified)
    let rem0 :=
      if zeroForOne then
        if 0 < amountSpecified then amountSpecified * f0 else amountSpecified * f1
      else
        if 0 < amountSpecified then amountSpecified * f1 else amountSpecified * f0
    let s0 : F64State := ⟨rem0, 0, slot0.sqrt_price, slot0.tick, (slot0.liquidity : ℚ), false⟩
    match f64Loop P bm ticks spacing zeroForOne limit exactInput fee fuel s0 with
    | .panicked => .panicked
    | .outOfFuel => .outOfFuel
    | .done s =>
      let a0 := if zeroForOne = exactInput then amountSpecified - s.rem else s.calcAmt
      let a1 := if zeroForOne = exactInput then s.calcAmt else amountSpecified - s.rem
      .done ⟨a0 / f0, a1 / f1, s.price, s.liq, s.tick⟩

/-! ## The exact integer variant (`swap.rs`)

`swap.rs` calls into the missing modules `tick_math`, `swap_math` and
the tick recompute; those three calls are abstracted as an explicit
record of helper functions `IntFns`, so the theorems about the loop
quantify over every behaviour those modules could have (hypotheses on
them, where needed, restate the spec's contracts for the modules). -/

/-- Return value of `swap_math::compute_swap_step`: next price,
amount in, amount out, fee (all `U256`). -/
structure IntStepRes where
  next : ℕ
  amountIn : ℕ
  amountOut : ℕ
  feeAmount : ℕ
deriving DecidableEq, Repr

/-- The helper functions of the missing modules that `swap.rs` calls:
`tick_math::get_sqrt_ratio_at_tick`, `tick_math::get_tick_at_sqrt_ratio`
and `swap_math::compute_swap_step`. -/
structure IntFns where
  getSqrtRatioAtTick : ℤ → Except UniErr ℕ
  getTickAtSqrtRatio : ℕ → Except UniErr ℤ
  computeSwapStep : ℕ → ℕ → ℕ → ℤ → ℕ → Except UniErr IntStepRes

/-- `swap.rs::Slot0`. -/
structure Slot0I where
  sqrt_price : ℕ
  liquidity : ℕ
  tick : ℤ
deriving DecidableEq, Repr

/-- `swap.rs::SwapState`. -/
structure IntState where
  rem : ℤ
  calcAmt : ℤ
  price : ℕ
  tick : ℤ
  liq : ℕ
deriving DecidableEq, Repr

/-- `swap.rs::SwapResult`. -/
structure IntSwapResult where
  amount0_delta : ℤ
  amount1_delta : ℤ
  sqrt_price_after : ℕ
  liquidity_after : ℕ
  tick_after : ℤ
deriving DecidableEq, Repr

/-- Outcome of a single body execution of the integer swap loop. -/
inductive IntBodyRes where
  | next : IntState → IntBodyRes
  | err : UniErr → IntBodyRes
  | panic : IntBodyRes
deriving DecidableEq, Repr

/-- Outcome of the integer swap loop. -/
inductive IntLoopOut where
  | done : IntState → IntLoopOut
  | err : UniErr → IntLoopOut
  | panicked : IntLoopOut
  | outOfFuel : IntLoopOut
deriving DecidableEq, Repr

/-- Outcome of the full integer `swap`. -/
inductive IntOut where
  | done : IntSwapResult → IntOut
  | err : UniErr → IntOut
  | panicked : IntOut
  | outOfFuel : IntOut
deriving DecidableEq, Repr

/-- The loop condition of the integer swap loop (`swap.rs` line 85):
remaining amount nonzero and price not exactly at the limit. -/
def intLoopGuard (limit : ℕ) (s : IntState) : Prop :=
  s.rem ≠ 0 ∧ s.price ≠ limit

instance (limit : ℕ) (s : IntState) : Decidable (intLoopGuard limit s) := by
  unfold intLoopGuard
  infer_instance

/-- One iteration of the integer swap loop (`swap.rs` lines 86–152):
boundary lookup, clamp, candidate price, target selection, step
computation, amount accounting (through `I256::from_raw`), the
boundary-crossing update via `liquidity_math::add_delta`, and the tick
recompute when the price moved without landing on the boundary. -/
def intSwapBody (fns : IntFns) (bm : Bitmap) (ticks : TickList) (spacing : ℤ)
    (zeroForOne : Bool) (limit : ℕ) (exactInput : Bool) (fee : ℕ)
    (s : IntState) : IntBodyRes :=
  let tb := nextInitializedTickWithinOneWord bm s.tick spacing zeroForOne
  let tickNext := clampTick tb.1
  let initialized := tb.2
  match fns.getSqrtRatioAtTick tickNext with
  | .error e => .err e
  | .ok bPrice =>
    let hitToLimit := if zeroForOne then bPrice < limit else limit < bPrice
    let target := if hitToLimit then limit else bPrice
    match fns.computeSwapStep s.price target s.liq s.rem fee with
    | .error e => .err e
    | .ok r =>
      let rem' := if exactInput then s.rem - ((r.amountIn : ℤ) + r.feeAmount)
                  else s.rem + r.amountOut
      let calc' := if exactInput then s.calcAmt - r.amountOut
                   else s.calcAmt + ((r.amountIn : ℤ) + r.feeAmount)
      if r.next = bPrice then
        if initialized then
          match List.lookup tickNext ticks with
          | none => .panic
          | some ti =>
            let lnet := if zeroForOne then -ti.l_net else ti.l_net
            match addDelta s.liq lnet with
            | .error e => .err e
            | .ok liq' =>
              .next ⟨rem', calc', r.next, (if zeroForOne then tickNext - 1 else tickNext), liq'⟩
        else
          .next ⟨rem', calc', r.next, (if zeroForOne then tickNext - 1 else tickNext), s.liq⟩
      else if r.next ≠ s.price then
        match fns.getTickAtSqrtRatio r.next with
        | .error e => .err e
        | .ok t' => .next ⟨rem', calc', r.next, t', s.liq⟩
      else
        .next ⟨rem', calc', r.next, s.tick, s.liq⟩

/-- The integer swap loop (`swap.rs` line 85), fuel-indexed: the
condition is re-evaluated before every iteration; fuel is consumed once
per executed iteration. -/
def intSwapLoop (fns : IntFns) (bm : Bitmap) (ticks : TickList) (spacing : ℤ)
    (zeroForOne : Bool) (limit : ℕ) (exactInput : Bool) (fee : ℕ) :
    ℕ → IntState → IntLoopOut
  | 0, s => if intLoopGuard limit s then .outOfFuel else .done s
  | fuel + 1, s =>
    if intLoopGuard limit s then
      match intSwapBody fns bm ticks spacing zeroForOne limit exactInput fee s with
      | .err e => .err e
      | .panic => .panicked
      | .next s' => intSwapLoop fns bm ticks spacing zeroForOne limit exactInput fee fuel s'
    else .done s

/-- `swap.rs::swap` (lines 52–170): the price-limit validations, the
loop, and the sign assignment of the two deltas. -/
def intSwap (fns : IntFns) (ticks : TickList) (bm : Bitmap) (spacing : ℤ)
    (zeroForOne : Bool) (amountSpecified : ℤ) (limit : ℕ) (slot0 : Slot0I)
    (fee : ℕ) (fuel : ℕ) : IntOut :=
  if limit ≤ minSqrtPriceX96 then .err .SplM
  else if maxSqrtPriceX96 ≤ limit then .err .SpuM
  else if zeroForOne ∧ slot0.sqrt_price ≤ limit then .err .SplC
  else if ¬zeroForOne ∧ limit ≤ slot0.sqrt_price then .err .SpuC
  else
    let exactInput : Bool := decide (0 < amountSpecified)
    let s0 : IntState := ⟨amountSpecified, 0, slot0.sqrt_price, slot0.tick, slot0.liquidity⟩
    match intSwapLoop fns bm ticks spacing zeroForOne limit exactInput fee fuel s0 with
    | .err e => .err e
    | .panicked => .panicked
    | .outOfFuel => .outOfFuel
    | .done s =>
      let a0 := if zeroForOne = exactInput then amountSpecified - s.rem else s.calcAmt
      let a1 := if zeroForOne = exactInput then s.calcAmt else amountSpecified - s.rem
      .done ⟨a0, a1, s.price, s.liq, s.tick⟩

/-! ## Helper instances for concrete runs -/

/-- A trivial instantiation of the missing integer helper modules, used
for concrete runs that never depend on their values. -/
def trivIntFns : IntFns where
  getSqrtRatioAtTick := fun _ => .ok 0
  getTickAtSqrtRatio := fun _ => .ok 0
  computeSwapStep := fun _ _ _ _ _ => .ok ⟨0, 0, 0, 0⟩

/-! ## Spec-modelled integer step math (`swap_math`, `sqrt_price_math`)

The integer `swap_math::compute_swap_step` and the `sqrt_price_math`
formulas it uses are not under `src/`; the definitions below model them
from the spec (sections 4.4 and 4.5: the two delta formulas, their
inverses, rounding conservative for the pool, fee in parts per million).
They are used to instantiate the abstract `IntFns` record in concrete
runs. -/

/-- Modelled from the spec: ceiling division on naturals (the round-up
direction of `mulDiv`). -/
def divRoundUp (a b : ℕ) : ℕ := (a + b - 1) / b

/-- Modelled from the spec: integer `amount0` between two square-root
prices at constant liquidity, `l * 2^96 * (upper - lower) / (lower *
upper)`, with selectable rounding. -/
def intAmount0Delta (lower upper l : ℕ) (roundUp : Bool) : ℕ :=
  let num := l * 2 ^ 96 * (upper - lower)
  if roundUp then divRoundUp num (lower * upper) else num / (lower * upper)

/-- Modelled from the spec: integer `amount1` between two square-root
prices at constant liquidity, `l * (upper - lower) / 2^96`, with
selectable rounding. -/
def intAmount1Delta (lower upper l : ℕ) (roundUp : Bool) : ℕ :=
  let num := l * (upper - lower)
  if roundUp then divRoundUp num (2 ^ 96) else num / 2 ^ 96

/-- Modelled from the spec: the square-root price after spending a fixed
input amount, rounding conservatively for the pool. -/
def intSqrtPriceFromInput (c l amountIn : ℕ) (zeroForOne : Bool) : ℕ :=
  if zeroForOne then divRoundUp (l * 2 ^ 96 * c) (l * 2 ^ 96 + amountIn * c)
  else c + amountIn * 2 ^ 96 / l

/-- Modelled from the spec: the square-root price after extracting a
fixed output amount, rounding conservatively for the pool. -/
def intSqrtPriceFromOutput (c l amountOut : ℕ) (zeroForOne : Bool) : ℕ :=
  if zeroForOne then c - divRoundUp (amountOut * 2 ^ 96) l
  else divRoundUp (l * 2 ^ 96 * c) (l * 2 ^ 96 - amountOut * c)

/-- Modelled from the spec: `swap_math::compute_swap_step` (section
4.5): direction from the price comparison, mode from the sign of the
remaining amount, fee in parts per million; computes the amount needed
to reach the target, clamps to the target or solves the inverse
formula, recomputes the amounts for the final price pair, caps the
output in exact-output mode, and takes the fee (the whole remainder of
the input budget when the target was not reached). -/
def specComputeSwapStep (c target l : ℕ) (rem : ℤ) (fee : ℕ) :
    Except UniErr IntStepRes :=
  let zfo := target ≤ c
  let exactIn := 0 ≤ rem
  let p1 : ℕ × ℕ × ℕ × Bool :=
    if exactIn then
      let remLessFee := rem.toNat * (10 ^ 6 - fee) / 10 ^ 6
      let ain := if zfo then intAmount0Delta target c l true
                 else intAmount1Delta c target l true
      if ain ≤ remLessFee then (target, ain, 0, true)
      else (intSqrtPriceFromInput c l remLessFee (decide zfo), ain, 0, false)
    else
      let aout := if zfo then intAmount1Delta target c l false
                  else intAmount0Delta c target l false
      if aout ≤ (-rem).toNat then (target, 0, aout, true)
      else (intSqrtPriceFromOutput c l (-rem).toNat (decide zfo), 0, aout, false)
  let next := p1.1
  let max := p1.2.2.2
  let ain :=
    if zfo then
      if ¬max ∨ ¬exactIn then intAmount0Delta next c l true else p1.2.1
    else
      if ¬max ∨ ¬exactIn then intAmount1Delta c next l true else p1.2.1
  let aout :=
    if zfo then
      if ¬max ∨ exactIn then intAmount1Delta next c l false else p1.2.2.1
    else
      if ¬max ∨ exactIn then intAmount0Delta c next l false else p1.2.2.1
  let aout := if ¬exactIn ∧ (-rem).toNat < aout then (-rem).toNat else aout
  let feeAmt := if exactIn ∧ ¬max then rem.toNat - ain
                else divRoundUp (ain * fee) (10 ^ 6 - fee)
  .ok ⟨next, ain, aout, feeAmt⟩

/-- An `IntFns` instance whose step math is the spec-modelled integer
`compute_swap_step`, with a constant boundary price of `2^78` and a
trivial tick recompute; used in concrete integer runs. -/
def c8Fns : IntFns where
  getSqrtRatioAtTick := fun _ => .ok (2 ^ 78)
  getTickAtSqrtRatio := fun _ => .ok 0
  computeSwapStep := specComputeSwapStep

/-- An `IntFns` instance like `c8Fns` but with the constant boundary
price `3 * 2^78`, placing the boundary between the price limit and the
current price in the panic run. -/
def c10Fns : IntFns where
  getSqrtRatioAtTick := fun _ => .ok (3 * 2 ^ 78)
  getTickAtSqrtRatio := fun _ => .ok 0
  computeSwapStep := specComputeSwapStep

/-- Modelled from the spec: an instantiation of the missing helper
modules satisfying every contract the spec states for them — the step
lands exactly on the target and consumes the whole remaining budget as
fee, the tick-price map is a monotone two-level step map hitting the
extreme square-root prices at the extreme ticks.  Used to witness the
termination theorem at a concrete state. -/
def termFns : IntFns where
  getSqrtRatioAtTick := fun t =>
    .ok (if t ≤ minTickConst then minSqrtPriceX96 else maxSqrtPriceX96)
  getTickAtSqrtRatio := fun _ => .ok 0
  computeSwapStep := fun _ t _ rem _ => .ok ⟨t, 0, 0, rem.toNat⟩

/-- When the break conditions hold, the f64 loop returns the state
unchanged, for every fuel. -/
theorem f64Loop_break (P : ℤ → ℚ) (bm : Bitmap) (ticks : TickList) (spacing : ℤ)
    (zfo : Bool) (limit : ℚ) (exactInput : Bool) (fee : ℚ) (s : F64State)
    (h : f64Break zfo limit s) :
    ∀ fuel, f64Loop P bm ticks spacing zfo limit exactInput fee fuel s = .done s := by
  intro fuel
  cases fuel with
  | zero => rw [f64Loop, if_pos h]
  | succ fuel => rw [f64Loop, if_pos h]

/-- When the loop condition fails, the integer loop returns the state
unchanged, for every fuel. -/
theorem intSwapLoop_stop (fns : IntFns) (bm : Bitmap) (ticks : TickList) (spacing : ℤ)
    (zfo : Bool) (limit : ℕ) (exactInput : Bool) (fee : ℕ) (s : IntState)
    (h : ¬ intLoopGuard limit s) :
    ∀ fuel, intSwapLoop fns bm ticks spacing zfo limit exactInput fee fuel s = .done s := by
  intro fuel
  cases fuel with
  | zero => rw [intSwapLoop, if_neg h]
  | succ fuel => rw [intSwapLoop, if_neg h]

/-! ## C3: price-limit validation errors -/

/-- C3: before any step is computed (for every behaviour of the helper
modules), the integer `swap` fails with the out-of-range errors
`SplM`/`SpuM` when the price limit is at or below the minimum / at or
above the maximum representable square-root price, and otherwise fails
with the not-beyond-current errors `SplC`/`SpuC` when the limit is not
strictly below (selling) / strictly above (buying) the current price. -/
theorem c3_price_limit_validation (fns : IntFns) (ticks : TickList) (bm : Bitmap)
    (spacing : ℤ) (zfo : Bool) (amt : ℤ) (limit : ℕ) (slot0 : Slot0I)
    (fee fuel : ℕ) :
    (limit ≤ minSqrtPriceX96 →
      intSwap fns ticks bm spacing zfo amt limit slot0 fee fuel = .err .SplM) ∧
    (minSqrtPriceX96 < limit → maxSqrtPriceX96 ≤ limit →
      intSwap fns ticks bm spacing zfo amt limit slot0 fee fuel = .err .SpuM) ∧
    (minSqrtPriceX96 < limit → limit < maxSqrtPriceX96 → zfo = true →
      slot0.sqrt_price ≤ limit →
      intSwap fns ticks bm spacing zfo amt limit slot0 fee fuel = .err .SplC) ∧
    (minSqrtPriceX96 < limit → limit < maxSqrtPriceX96 → zfo = false →
      limit ≤ slot0.sqrt_price →
      intSwap fns ticks bm spacing zfo amt limit slot0 fee fuel = .err .SpuC) := by
  refine ⟨fun h1 => ?_, fun h1 h2 => ?_, fun h1 h2 h3 h4 => ?_, fun h1 h2 h3 h4 => ?_⟩
  · simp [intSwap, h1]
  · simp [intSwap, not_le.mpr h1, h2]
  · simp [intSwap, not_le.mpr h1, not_le.mpr h2, h3, h4]
  · simp [intSwap, not_le.mpr h1, not_le.mpr h2, h3, h4]

/-- Witness for C3 at a concrete input: a limit of `0` is rejected with
the lower-bound error. -/
theorem c3_price_limit_validation_witness :
    intSwap trivIntFns [] [] 1 true 1 0 ⟨100, 0, 0⟩ 0 5 = .err .SplM :=
  (c3_price_limit_validation trivIntFns [] [] 1 true 1 0 ⟨100, 0, 0⟩ 0 5).1 (by norm_num [minSqrtPriceX96])

/-! ## C7: the exact-output cap -/

/-- C7: in exact-output mode (negative remaining amount) the amount out
returned by the floating-point `compute_swap_step` never exceeds the
magnitude of the remaining amount, thanks to the final cap. -/
theorem c7_exact_output_cap (c t l rem f : ℚ) (h : rem < 0) :
    (f64ComputeSwapStep c t l rem f).amountOut ≤ -rem := by
  have hni : ¬ (0 ≤ rem) := not_le.mpr h
  unfold f64ComputeSwapStep
  dsimp only
  split_ifs
  all_goals first
    | exact le_refl _
    | (rename_i hx
       exact le_of_not_lt (fun hlt => hx ⟨hni, hlt⟩))

/-- Witness for C7 at a concrete input. -/
theorem c7_exact_output_cap_witness :
    (f64ComputeSwapStep 1 2 1 (-1) 0).amountOut ≤ 1 := by
  have := c7_exact_output_cap 1 2 1 (-1) 0 (by norm_num)
  simpa using this

/-! ## C2: the loop terminal conditions -/

/-- C2 (amended): the integer loop's terminal conditions are exactly
"remaining amount is zero" or "price exactly equals the limit" — there
is no liquidity condition — while the floating-point loop's terminal
conditions are exactly "exhausted flag", "remaining amount zero",
"liquidity at or below zero", or "price at/past the limit in the trade
direction".  The loop executes no iteration precisely when these hold. -/
theorem c2_terminal_conditions :
    (∀ (fns : IntFns) (bm : Bitmap) (ticks : TickList) (spacing : ℤ) (zfo : Bool)
        (limit : ℕ) (exactInput : Bool) (fee : ℕ) (s : IntState),
      intSwapLoop fns bm ticks spacing zfo limit exactInput fee 0 s = .done s ↔
        (s.rem = 0 ∨ s.price = limit)) ∧
    (∀ (P : ℤ → ℚ) (bm : Bitmap) (ticks : TickList) (spacing : ℤ) (zfo : Bool)
        (limit : ℚ) (exactInput : Bool) (fee : ℚ) (s : F64State),
      f64Loop P bm ticks spacing zfo limit exactInput fee 0 s = .done s ↔
        (s.exhausted = true ∨ s.rem = 0 ∨ s.liq ≤ 0 ∨
          (if zfo then s.price ≤ limit else limit ≤ s.price))) := by
  constructor
  · intro fns bm ticks spacing zfo limit exactInput fee s
    rw [intSwapLoop]
    by_cases hg : intLoopGuard limit s
    · rw [if_pos hg]
      constructor
      · intro h
        exact IntLoopOut.noConfusion h
      · intro h
        exfalso
        rcases hg with ⟨h1, h2⟩
        rcases h with h | h
        · exact h1 h
        · exact h2 h
    · rw [if_neg hg]
      unfold intLoopGuard at hg
      push_neg at hg
      constructor
      · intro _
        by_cases hr : s.rem = 0
        · exact Or.inl hr
        · exact Or.inr (hg hr)
      · intro _
        rfl
  · intro P bm ticks spacing zfo limit exactInput fee s
    rw [f64Loop]
    by_cases hb : f64Break zfo limit s
    · rw [if_pos hb]
      unfold f64Break at hb
      constructor
      · intro _
        exact hb
      · intro _
        rfl
    · rw [if_neg hb]
      unfold f64Break at hb
      constructor
      · intro h
        exact F64LoopOut.noConfusion h
      · intro h
        exact absurd h hb

/-- Counterexample for C2 as stated: the integer loop at a state with
zero active liquidity (but nonzero remaining amount and price off the
limit) does execute a further iteration — with no fuel its interpreter
reports `outOfFuel` instead of terminating. -/
theorem c2_counterexample :
    intSwapLoop trivIntFns [] [] 1 true 50 true 0 0 ⟨1, 0, 100, 0, 0⟩ = .outOfFuel ∧
    (⟨1, 0, 100, 0, 0⟩ : IntState).liq = 0 := by
  constructor
  · rfl
  · rfl

/-! ## C1: the zero-liquidity special case -/

/-- Counterexample for C1 as stated: the floating-point `swap` on a
zero-liquidity snapshot with an empty ticks map returns the all-zero
default result, whose square-root price (0) and tick (0) are NOT the
snapshot's price (5) and tick (7). -/
theorem c1_counterexample :
    f64Swap (fun _ => 0) [] [] 1 true 3 1 ⟨5, 0, 7⟩ 0 1 1 9 = .done ⟨0, 0, 0, 0, 0⟩ ∧
    (5 : ℚ) ≠ 0 ∧ (7 : ℤ) ≠ 0 := by
  refine ⟨rfl, by norm_num, by norm_num⟩

/-- C1 (amended): in the floating-point variant, a snapshot with an
empty ticks map returns the all-zero default immediately; a
zero-liquidity snapshot with a NONEMPTY ticks map exits before any step
with price and tick unchanged and (with unit decimal factors) both
deltas zero; the integer variant has no zero-liquidity special case at
all.  This theorem is the nonempty-ticks zero-liquidity statement. -/
theorem c1_zero_liquidity_amended (P : ℤ → ℚ) (ticks : TickList) (bm : Bitmap)
    (spacing : ℤ) (zfo : Bool) (amt limitQ : ℚ) (slot0 : Slot0F) (fee : ℚ)
    (fuel : ℕ) (hticks : ticks.length ≠ 0) (hliq : slot0.liquidity = 0) :
    f64Swap P ticks bm spacing zfo amt limitQ slot0 fee 1 1 fuel =
      .done ⟨0, 0, slot0.sqrt_price, 0, slot0.tick⟩ := by
  unfold f64Swap
  rw [if_neg hticks]
  have hbreak : f64Break zfo limitQ
      ⟨(if zfo then if 0 < amt then amt * 1 else amt * 1
        else if 0 < amt then amt * 1 else amt * 1), 0, slot0.sqrt_price, slot0.tick,
        (slot0.liquidity : ℚ), false⟩ := by
    unfold f64Break
    right; right; left
    simp [hliq]
  have hrem : (if zfo then if 0 < amt then amt * 1 else amt * 1
      else if 0 < amt then amt * 1 else amt * 1) = amt := by
    split_ifs <;> ring
  dsimp only
  rw [f64Loop_break _ _ _ _ _ _ _ _ _ hbreak]
  dsimp only
  simp only [hrem, hliq]
  split_ifs <;> simp

/-- Witness for C1's amended statement at a concrete input. -/
theorem c1_zero_liquidity_amended_witness :
    f64Swap (fun _ => 0) [(0, ⟨0, 0, 0⟩)] [] 1 true 3 1 ⟨5, 0, 7⟩ 0 1 1 9 =
      .done ⟨0, 0, 5, 0, 7⟩ :=
  c1_zero_liquidity_amended (fun _ => 0) [(0, ⟨0, 0, 0⟩)] [] 1 true 3 1 ⟨5, 0, 7⟩ 0 9
    (by norm_num) rfl

/-! ## C4: exact-input conservation -/

/-- In exact-input mode, with a fee rate in `[0, 1)`, the floating-point
step's amount in plus fee never exceeds the remaining amount, and when
the step exhausted the remaining amount (did not reach the target) the
sum equals the remaining amount exactly. -/
theorem f64Step_exactIn_conservation (c t l rem f : ℚ)
    (hrem : 0 ≤ rem) (hf0 : 0 ≤ f) (hf1 : f < 1) :
    (f64ComputeSwapStep c t l rem f).amountIn + (f64ComputeSwapStep c t l rem f).feeAmount ≤ rem ∧
    ((f64ComputeSwapStep c t l rem f).exhausted = true →
      (f64ComputeSwapStep c t l rem f).amountIn + (f64ComputeSwapStep c t l rem f).feeAmount = rem) := by
  have h1f : (0 : ℚ) < 1 - f := by linarith
  unfold f64ComputeSwapStep f64StepPhase1
  dsimp only
  by_cases hz : t ≤ c
  · simp only [hz, if_true]
    by_cases hmax : get_amount0_delta t c l ≤ rem * (1 - f)
    · simp only [hmax, if_true]
      simp [hrem]
      have heq : get_amount0_delta t c l + get_amount0_delta t c l * f / (1 - f)
          = get_amount0_delta t c l / (1 - f) := by
        field_simp
        ring
      rw [heq, div_le_iff₀ h1f]
      linarith [hmax]
    · simp only [hmax, if_false]
      simp [hrem]
  · simp only [hz, if_false]
    by_cases hmax : get_amount1_delta c t l ≤ rem * (1 - f)
    · simp [hrem, hmax]
      have heq : get_amount1_delta c t l + get_amount1_delta c t l * f / (1 - f)
          = get_amount1_delta c t l / (1 - f) := by
        field_simp
        ring
      rw [heq, div_le_iff₀ h1f]
      linarith [hmax]
    · simp [hrem, hmax]

/-- Counterexample for C4 as stated: an exact-input step that does NOT
reach the target price (the exhausted flag is set and the returned price
differs from the target) yet has `amountIn + feeAmount` exactly equal to
the remaining amount — equality is not restricted to target-reaching
steps. -/
theorem c4_counterexample :
    (f64ComputeSwapStep (2 ^ 96) (2 ^ 96 / 2) 1 (1 / 2) 0).amountIn
      + (f64ComputeSwapStep (2 ^ 96) (2 ^ 96 / 2) 1 (1 / 2) 0).feeAmount = 1 / 2 ∧
    (f64ComputeSwapStep (2 ^ 96) (2 ^ 96 / 2) 1 (1 / 2) 0).next ≠ 2 ^ 96 / 2 ∧
    (f64ComputeSwapStep (2 ^ 96) (2 ^ 96 / 2) 1 (1 / 2) 0).exhausted = true ∧
    (0 : ℚ) < 1 / 2 := by
  refine ⟨?_, ?_, ?_, by norm_num⟩ <;>
    norm_num [f64ComputeSwapStep, f64StepPhase1, get_amount0_delta, get_amount1_delta,
      get_sqrt_price_from_input, get_sqrt_price_from_output, q96]

/-- C4 (amended): for every exact-input step computation (positive
remaining amount, fee rate in `[0, 1)`), `amountIn + feeAmount ≤
remaining`, with equality whenever the step did NOT reach the target
(the exhausted flag is set: the whole input budget is consumed as
principal plus fee); when the target was reached the sum can fall
strictly below the remaining amount. -/
theorem c4_exact_input_conservation (c t l rem f : ℚ)
    (hrem : 0 < rem) (hf0 : 0 ≤ f) (hf1 : f < 1) :
    (f64ComputeSwapStep c t l rem f).amountIn + (f64ComputeSwapStep c t l rem f).feeAmount ≤ rem ∧
    ((f64ComputeSwapStep c t l rem f).exhausted = true →
      (f64ComputeSwapStep c t l rem f).amountIn + (f64ComputeSwapStep c t l rem f).feeAmount = rem) :=
  f64Step_exactIn_conservation c t l rem f (le_of_lt hrem) hf0 hf1

/-- Witness for C4's amended statement at a concrete input. -/
theorem c4_exact_input_conservation_witness :
    (f64ComputeSwapStep 4 2 1 1 0).amountIn + (f64ComputeSwapStep 4 2 1 1 0).feeAmount ≤ 1 ∧
    ((f64ComputeSwapStep 4 2 1 1 0).exhausted = true →
      (f64ComputeSwapStep 4 2 1 1 0).amountIn + (f64ComputeSwapStep 4 2 1 1 0).feeAmount = 1) :=
  c4_exact_input_conservation 4 2 1 1 0 (by norm_num) (by norm_num) (by norm_num)

/-! ## C8: signs of the two deltas -/

/-- Accounting invariant of the integer loop body: in exact-input mode
the remaining amount never increases and the calculated amount never
increases; in exact-output mode both never decrease. -/
theorem intSwapBody_account (fns : IntFns) (bm : Bitmap) (ticks : TickList)
    (spacing : ℤ) (zfo : Bool) (limit : ℕ) (exactInput : Bool) (fee : ℕ)
    (s s' : IntState)
    (h : intSwapBody fns bm ticks spacing zfo limit exactInput fee s = .next s') :
    (exactInput = true → s'.rem ≤ s.rem ∧ s'.calcAmt ≤ s.calcAmt) ∧
    (exactInput = false → s.rem ≤ s'.rem ∧ s.calcAmt ≤ s'.calcAmt) := by
  unfold intSwapBody at h
  simp only [] at h
  split at h
  · exact IntBodyRes.noConfusion h
  · split at h
    · exact IntBodyRes.noConfusion h
    · rename_i r
      split at h
      · split at h
        · split at h
          · exact IntBodyRes.noConfusion h
          · split at h
            · exact IntBodyRes.noConfusion h
            · cases h
              constructor <;> intro he <;> subst he <;> simp <;> omega
        · cases h
          constructor <;> intro he <;> subst he <;> simp <;> omega
      · split at h
        · split at h
          · exact IntBodyRes.noConfusion h
          · cases h
            constructor <;> intro he <;> subst he <;> simp <;> omega
        · cases h
          constructor <;> intro he <;> subst he <;> simp <;> omega

/-- Accounting invariant propagated through the integer loop. -/
theorem intSwapLoop_account (fns : IntFns) (bm : Bitmap) (ticks : TickList)
    (spacing : ℤ) (zfo : Bool) (limit : ℕ) (exactInput : Bool) (fee : ℕ) :
    ∀ (fuel : ℕ) (s s' : IntState),
      intSwapLoop fns bm ticks spacing zfo limit exactInput fee fuel s = .done s' →
      (exactInput = true → s'.rem ≤ s.rem ∧ s'.calcAmt ≤ s.calcAmt) ∧
      (exactInput = false → s.rem ≤ s'.rem ∧ s.calcAmt ≤ s'.calcAmt) := by
  intro fuel
  induction fuel with
  | zero =>
    intro s s' h
    rw [intSwapLoop] at h
    split at h
    · exact IntLoopOut.noConfusion h
    · cases h
      constructor <;> intro he <;> exact ⟨le_refl _, le_refl _⟩
  | succ fuel ih =>
    intro s s' h
    rw [intSwapLoop] at h
    split at h
    · split at h
      · exact IntLoopOut.noConfusion h
      · exact IntLoopOut.noConfusion h
      · rename_i s1 hbody
        have h1 := intSwapBody_account fns bm ticks spacing zfo limit exactInput fee s s1 hbody
        have h2 := ih s1 s' h
        constructor <;> intro he
        · have a1 := h1.1 he
          have a2 := h2.1 he
          exact ⟨le_trans a2.1 a1.1, le_trans a2.2 a1.2⟩
        · have a1 := h1.2 he
          have a2 := h2.2 he
          exact ⟨le_trans a1.1 a2.1, le_trans a1.2 a2.2⟩
    · cases h
      constructor <;> intro he <;> exact ⟨le_refl _, le_refl _⟩

/-- C8 (amended): for every successful integer swap call, whatever the
missing helper modules do, the two returned deltas never have the same
strict sign — the pool never gains both assets nor loses both assets —
equivalently their product is nonpositive.  (A nonzero delta paired
with a zero delta can occur with nonzero liquidity, so "signs always
opposite except the zero-liquidity case" is too strong.) -/
theorem c8_delta_signs (fns : IntFns) (ticks : TickList) (bm : Bitmap)
    (spacing : ℤ) (zfo : Bool) (amt : ℤ) (limit : ℕ) (slot0 : Slot0I)
    (fee fuel : ℕ) (r : IntSwapResult)
    (h : intSwap fns ticks bm spacing zfo amt limit slot0 fee fuel = .done r) :
    r.amount0_delta * r.amount1_delta ≤ 0 := by
  unfold intSwap at h
  split at h
  · exact IntOut.noConfusion h
  · split at h
    · exact IntOut.noConfusion h
    · split at h
      · exact IntOut.noConfusion h
      · split at h
        · exact IntOut.noConfusion h
        · simp only [] at h
          split at h
          · exact IntOut.noConfusion h
          · exact IntOut.noConfusion h
          · exact IntOut.noConfusion h
          · rename_i s hloop
            have hacc := intSwapLoop_account fns bm ticks spacing zfo limit
              (decide (0 < amt)) fee fuel ⟨amt, 0, slot0.sqrt_price, slot0.tick, slot0.liquidity⟩ s hloop
            cases h
            by_cases hpos : 0 < amt
            · have hd : decide (0 < amt) = true := decide_eq_true hpos
              have ha := hacc.1 hd
              simp only [] at ha
              have h1 : 0 ≤ amt - s.rem := by omega
              have h2 : s.calcAmt ≤ 0 := by
                have := ha.2
                omega
              dsimp only
              split_ifs <;> nlinarith [h1, h2]
            · have hd : decide (0 < amt) = false := decide_eq_false hpos
              have ha := hacc.2 hd
              simp only [] at ha
              have h1 : amt - s.rem ≤ 0 := by omega
              have h2 : 0 ≤ s.calcAmt := by
                have := ha.2
                omega
              dsimp only
              split_ifs <;> nlinarith [h1, h2]

/-- Counterexample for C8 as stated: with the spec-modelled integer step
math, a 10-wei exact-input sell against a large-liquidity pool moves the
price by less than one integer price quantum, so the computed output
rounds down to zero: the result has `amount0_delta = 10 > 0` and
`amount1_delta = 0` (not opposite signs) while the pool's liquidity
(`2^96`) is nonzero. -/
theorem c8_counterexample :
    intSwap c8Fns [(0, ⟨0, 0, 0⟩)] [] 1 true 10 (2 ^ 79) ⟨2 ^ 80, 2 ^ 96, 5⟩ 3000 3 =
      .done ⟨10, 0, 2 ^ 80, 2 ^ 96, 5⟩ ∧
    ¬ (((10 : ℤ) > 0 ∧ (0 : ℤ) < 0) ∨ ((10 : ℤ) < 0 ∧ (0 : ℤ) > 0)) ∧
    (2 ^ 96 : ℕ) ≠ 0 := by
  refine ⟨by decide, by decide, by decide⟩

/-! ## C10: the ticks-map unwrap -/

set_option maxRecDepth 10000 in
/-- C10: in both swap variants an input that violates the precondition
"every tick marked initialized in the bitmap has an entry in the ticks
map" makes `swap` panic (the modelled `.unwrap()` failure) instead of
returning an error.  The bitmap word 0 marks bit 2 (tick 2), the ticks
map has no entry for tick 2, a sell from tick 6 lands exactly on the
tick-2 boundary with `initialized = true`, and the lookup panics: first
in the floating-point variant, then in the integer variant driven by
the spec-modelled step math. -/
theorem c10_unwrap_panic :
    Nat.testBit (wordAt [(0, 4)] 0) 2 = true ∧
    List.lookup (2 : ℤ) ([(99, ⟨99, 0, 7⟩)] : TickList) = none ∧
    f64Swap (fun _ => 12) [(99, ⟨99, 0, 7⟩)] [(0, 4)] 1 true (2 ^ 200) 10
      ⟨16, 1000000, 6⟩ 0 1 1 2 = .panicked ∧
    intSwap c10Fns [(99, ⟨99, 0, 7⟩)] [(0, 4)] 1 true (2 ^ 200) (2 ^ 79)
      ⟨2 ^ 80, 2 ^ 96, 6⟩ 3000 3 = .panicked := by
  refine ⟨by decide, by decide, ?_, by decide⟩
  have hnb : nextInitializedTickWithinOneWord [(0, 4)] 6 1 true = (2, true) := by decide
  have hlk : List.lookup (2 : ℤ) ([(99, ⟨99, 0, 7⟩)] : TickList) = none := by decide
  norm_num [f64Swap, f64Loop, f64Body, f64Break, f64ComputeSwapStep, f64StepPhase1,
    get_amount0_delta, get_amount1_delta, get_sqrt_price_from_input, get_sqrt_price_from_output,
    hnb, hlk, wordAt, clampTick, q96, minTickConst, maxTickConst]

/-! ## C5: boundary crossing -/

/-- C5 (amended): in every iteration of either swap loop whose step
price lands exactly on the candidate boundary price of an initialized
boundary, active liquidity is updated by adding the boundary's
`liquidity_net` (negated when selling asset 0) — through the checked
`add_delta` in the integer variant — and the current tick is set to
`boundary - 1` when selling, or to the boundary itself otherwise.
Consequently, liquidity after the call equals the liquidity at the
start of the FINAL crossing iteration plus that boundary's signed
delta (not the liquidity before the whole call, which earlier
crossings may already have changed). -/
theorem c5_boundary_crossing :
    (∀ (P : ℤ → ℚ) (bm : Bitmap) (ticks : TickList) (spacing : ℤ) (zfo : Bool)
        (limit : ℚ) (exactInput : Bool) (fee : ℚ) (s s' : F64State) (tnRaw : ℤ)
        (ti : TickInfo),
      nextInitializedTickWithinOneWord bm s.tick spacing zfo = (tnRaw, true) →
      List.lookup (clampTick tnRaw) ticks = some ti →
      (f64ComputeSwapStep s.price
        (if (if zfo then P (clampTick tnRaw) < limit else limit < P (clampTick tnRaw))
          then limit else P (clampTick tnRaw)) s.liq s.rem fee).next = P (clampTick tnRaw) →
      f64Body P bm ticks spacing zfo limit exactInput fee s = .next s' →
      s'.liq = s.liq + (if zfo then -ti.l_net else ti.l_net) ∧
      s'.tick = (if zfo then clampTick tnRaw - 1 else clampTick tnRaw)) ∧
    (∀ (fns : IntFns) (bm : Bitmap) (ticks : TickList) (spacing : ℤ) (zfo : Bool)
        (limit : ℕ) (exactInput : Bool) (fee : ℕ) (s s' : IntState) (tnRaw : ℤ)
        (bPrice : ℕ) (r : IntStepRes) (ti : TickInfo) (v : ℕ),
      nextInitializedTickWithinOneWord bm s.tick spacing zfo = (tnRaw, true) →
      fns.getSqrtRatioAtTick (clampTick tnRaw) = .ok bPrice →
      fns.computeSwapStep s.price
        (if (if zfo then bPrice < limit else limit < bPrice) then limit else bPrice)
        s.liq s.rem fee = .ok r →
      r.next = bPrice →
      List.lookup (clampTick tnRaw) ticks = some ti →
      addDelta s.liq (if zfo then -ti.l_net else ti.l_net) = .ok v →
      intSwapBody fns bm ticks spacing zfo limit exactInput fee s = .next s' →
      s'.liq = v ∧
      (v : ℤ) = (s.liq : ℤ) + (if zfo then -ti.l_net else ti.l_net) ∧
      s'.tick = (if zfo then clampTick tnRaw - 1 else clampTick tnRaw)) := by
  constructor
  · intro P bm ticks spacing zfo limit exactInput fee s s' tnRaw ti hnb hlk hnext hbody
    unfold f64Body at hbody
    rw [hnb] at hbody
    simp only [] at hbody
    rw [hnext, if_pos rfl, hlk] at hbody
    cases hbody
    exact ⟨rfl, rfl⟩
  · intro fns bm ticks spacing zfo limit exactInput fee s s' tnRaw bPrice r ti v
      hnb hp hstep hnext hlk hadd hbody
    have hv : (v : ℤ) = (s.liq : ℤ) + (if zfo then -ti.l_net else ti.l_net) := by
      by_cases hz : zfo = true
      · rw [if_pos hz]
        rw [if_pos hz] at hadd
        unfold addDelta at hadd
        split_ifs at hadd with h1 h2 h2 <;>
          first
            | exact Except.noConfusion hadd
            | (cases hadd
               omega)
      · rw [if_neg hz]
        rw [if_neg hz] at hadd
        unfold addDelta at hadd
        split_ifs at hadd with h1 h2 h2 <;>
          first
            | exact Except.noConfusion hadd
            | (cases hadd
               omega)
    unfold intSwapBody at hbody
    rw [hnb] at hbody
    simp only [] at hbody
    rw [hp] at hbody
    simp only [] at hbody
    rw [hstep] at hbody
    simp only [] at hbody
    rw [hnext] at hbody
    simp only [eq_self_iff_true, if_true] at hbody
    rw [hlk] at hbody
    simp only [] at hbody
    rw [hadd] at hbody
    simp only [] at hbody
    cases hbody
    exact ⟨rfl, hv, rfl⟩

set_option maxRecDepth 10000 in
/-- Counterexample for C5's corollary as stated (liquidity "before" read
as before the call): a sell crossing two initialized boundaries (net
deltas 100 at tick 4, then 300 at tick 2) ends exactly on the tick-2
boundary price, and the final liquidity is `1000000 - 100 - 300 =
999600`, not `1000000 - 300` (liquidity before the call plus the final
boundary's flipped delta). -/
theorem c5_counterexample :
    f64Swap (fun t => (t : ℚ) + 10) [(4, ⟨4, 0, 100⟩), (2, ⟨2, 0, 300⟩)] [(0, 20)] 1 true
        (2 ^ 200) 12 ⟨16, 1000000, 6⟩ 0 1 1 3 =
      .done ⟨11553446798642597029578546557747200 / 7,
        -499975 / 9903520314283042199192993792, 12, 999600, 1⟩ ∧
    List.lookup (2 : ℤ) ([(4, ⟨4, 0, 100⟩), (2, ⟨2, 0, 300⟩)] : TickList) = some ⟨2, 0, 300⟩ ∧
    (fun t => (t : ℚ) + 10) (2 : ℤ) = 12 ∧
    (999600 : ℚ) ≠ 1000000 + -(300 : ℚ) := by
  refine ⟨?_, by decide, by norm_num, by norm_num⟩
  have hnb1 : nextInitializedTickWithinOneWord [(0, 20)] 6 1 true = (4, true) := by decide
  have hnb2 : nextInitializedTickWithinOneWord [(0, 20)] 3 1 true = (2, true) := by decide
  have hlk4 : List.lookup (4 : ℤ)
      ([(4, ⟨4, 0, 100⟩), (2, ⟨2, 0, 300⟩)] : TickList) = some ⟨4, 0, 100⟩ := by decide
  have hlk2 : List.lookup (2 : ℤ)
      ([(4, ⟨4, 0, 100⟩), (2, ⟨2, 0, 300⟩)] : TickList) = some ⟨2, 0, 300⟩ := by decide
  norm_num [f64Swap, f64Loop, f64Body, f64Break, f64ComputeSwapStep, f64StepPhase1,
    get_amount0_delta, get_amount1_delta, get_sqrt_price_from_input, get_sqrt_price_from_output,
    hnb1, hnb2, hlk4, hlk2, wordAt, clampTick, q96, minTickConst, maxTickConst]

set_option maxRecDepth 10000 in
/-- Witness for C5's amended statement: the integer-variant crossing law
applied to a concrete landing iteration (liquidity `2^96`, boundary net
delta `7`, sell direction). -/
theorem c5_boundary_crossing_witness :
    (⟨1606938044258990275541962090605189062390197768597070224395291,
      -302231454903657293676544, 906694364710971881029632, 1,
      79228162514264337593543950329⟩ : IntState).liq = 2 ^ 96 - 7 ∧
    ((2 ^ 96 - 7 : ℕ) : ℤ) = (((2 ^ 96 : ℕ) : ℤ)) + (if true then -(7 : ℤ) else (7 : ℤ)) ∧
    (⟨1606938044258990275541962090605189062390197768597070224395291,
      -302231454903657293676544, 906694364710971881029632, 1,
      79228162514264337593543950329⟩ : IntState).tick =
      (if true then clampTick 2 - 1 else clampTick 2) := by
  have h := c5_boundary_crossing.2 c10Fns [(0, 4)] [(2, ⟨2, 0, 7⟩)] 1 true (2 ^ 79) true 3000
    ⟨2 ^ 200, 0, 2 ^ 80, 6, 2 ^ 96⟩
    ⟨1606938044258990275541962090605189062390197768597070224395291,
      -302231454903657293676544, 906694364710971881029632, 1,
      79228162514264337593543950329⟩
    2 (3 * 2 ^ 78)
    ⟨906694364710971881029632, 1730765619511609209510165443073366,
      302231454903657293676544, 5207920620396015675557167832719⟩
    ⟨2, 0, 7⟩ (2 ^ 96 - 7)
    (by decide) (by rfl) (by rfl) (by rfl) (by decide) (by rfl) (by decide)
  simpa using h

set_option maxRecDepth 10000 in
/-- Witness for C8's amended statement: the sign product of the deltas
of the concrete dust run is nonpositive. -/
theorem c8_delta_signs_witness :
    (⟨10, 0, 2 ^ 80, 2 ^ 96, 5⟩ : IntSwapResult).amount0_delta *
      (⟨10, 0, 2 ^ 80, 2 ^ 96, 5⟩ : IntSwapResult).amount1_delta ≤ 0 :=
  c8_delta_signs c8Fns [(0, ⟨0, 0, 0⟩)] [] 1 true 10 (2 ^ 79) ⟨2 ^ 80, 2 ^ 96, 5⟩ 3000 3
    ⟨10, 0, 2 ^ 80, 2 ^ 96, 5⟩ (by decide)

/-! ## C6: price monotonicity -/

set_option maxRecDepth 10000 in
/-- Price bounds of the floating-point step when selling (current at or
above target): the resulting price stays in `[target, current]`. -/
theorem f64Step_bounds_down (c t l rem f : ℚ)
    (hct : t ≤ c) (ht : 0 < t) (hl : 0 < l) (hf0 : 0 ≤ f) (hf1 : f < 1) :
    t ≤ (f64ComputeSwapStep c t l rem f).next ∧ (f64ComputeSwapStep c t l rem f).next ≤ c := by
  have h1f : (0 : ℚ) < 1 - f := by linarith
  have hq : (0 : ℚ) < q96 := by norm_num [q96]
  have hc : (0 : ℚ) < c := lt_of_lt_of_le ht hct
  have hL : (0 : ℚ) < l * q96 := by positivity
  unfold f64ComputeSwapStep f64StepPhase1
  dsimp only
  simp only [hct, if_true]
  by_cases hrem : 0 ≤ rem
  · simp only [hrem, if_true]
    have ha : 0 ≤ rem * (1 - f) := by positivity
    by_cases hmax : get_amount0_delta t c l ≤ rem * (1 - f)
    · simp only [hmax, if_true]
      exact ⟨le_refl t, hct⟩
    · simp only [hmax, if_false]
      unfold get_sqrt_price_from_input
      simp only [decide_eq_true_eq, hct, if_true]
      have hD : (0 : ℚ) < l * q96 + rem * (1 - f) * c := by positivity
      constructor
      · rw [le_div_iff₀ hD]
        have hlt : rem * (1 - f) < get_amount0_delta t c l := not_le.mp hmax
        unfold get_amount0_delta at hlt
        rw [lt_div_iff₀ (by positivity : (0 : ℚ) < t * c)] at hlt
        nlinarith [hlt]
      · rw [div_le_iff₀ hD]
        nlinarith [ha, mul_pos hc hc]
  · simp only [hrem, if_false]
    have hy : 0 < -rem := by linarith [not_le.mp hrem]
    by_cases hmax : get_amount1_delta t c l ≤ -rem
    · simp only [hmax, if_true]
      exact ⟨le_refl t, hct⟩
    · simp only [hmax, if_false]
      unfold get_sqrt_price_from_output
      simp only [decide_eq_true_eq, hct, if_true]
      constructor
      · have hlt : -rem < get_amount1_delta t c l := not_le.mp hmax
        unfold get_amount1_delta at hlt
        rw [lt_div_iff₀ hq] at hlt
        have h2 : -rem * q96 / l < c - t := by
          rw [div_lt_iff₀ hl]
          nlinarith [hlt]
        rw [le_sub_iff_add_le]
        linarith
      · have : 0 ≤ -rem * q96 / l := by positivity
        linarith

set_option maxRecDepth 10000 in
/-- Price bounds of the floating-point step when buying (current at or
below target): the resulting price stays in `[current, target]`. -/
theorem f64Step_bounds_up (c t l rem f : ℚ)
    (hct : c ≤ t) (hc : 0 < c) (hl : 0 < l) (hf0 : 0 ≤ f) (hf1 : f < 1) :
    c ≤ (f64ComputeSwapStep c t l rem f).next ∧ (f64ComputeSwapStep c t l rem f).next ≤ t := by
  have h1f : (0 : ℚ) < 1 - f := by linarith
  have hq : (0 : ℚ) < q96 := by norm_num [q96]
  have ht : (0 : ℚ) < t := lt_of_lt_of_le hc hct
  rcases eq_or_lt_of_le hct with heq | hlt
  · subst heq
    unfold f64ComputeSwapStep f64StepPhase1
    dsimp only
    simp only [le_refl, if_true]
    have h00 : get_amount0_delta c c l = 0 := by
      unfold get_amount0_delta
      simp
    have h10 : get_amount1_delta c c l = 0 := by
      unfold get_amount1_delta
      simp
    by_cases hrem : 0 ≤ rem
    · simp only [hrem, if_true, h00]
      have ha : (0 : ℚ) ≤ rem * (1 - f) := by positivity
      simp only [ha, if_true]
      exact ⟨le_refl c, le_refl c⟩
    · simp only [hrem, if_false, h10]
      have hy : (0 : ℚ) ≤ -rem := by linarith [not_le.mp hrem]
      simp only [hy, if_true]
      exact ⟨le_refl c, le_refl c⟩
  · have hz : ¬ (t ≤ c) := not_le.mpr hlt
    unfold f64ComputeSwapStep f64StepPhase1
    dsimp only
    simp only [hz, if_false]
    by_cases hrem : 0 ≤ rem
    · simp only [hrem, if_true]
      by_cases hmax : get_amount1_delta c t l ≤ rem * (1 - f)
      · simp only [hmax, if_true]
        exact ⟨hct, le_refl t⟩
      · simp only [hmax, if_false]
        unfold get_sqrt_price_from_input
        simp only [decide_eq_true_eq, hz, if_false]
        have ha : (0 : ℚ) ≤ rem * (1 - f) := by positivity
        constructor
        · have : (0 : ℚ) ≤ rem * (1 - f) * q96 / l := by positivity
          linarith
        · have hlt2 : rem * (1 - f) < get_amount1_delta c t l := not_le.mp hmax
          unfold get_amount1_delta at hlt2
          rw [lt_div_iff₀ hq] at hlt2
          have h2 : rem * (1 - f) * q96 / l ≤ t - c := by
            rw [div_le_iff₀ hl]
            nlinarith [hlt2]
          linarith
    · simp only [hrem, if_false]
      have hy : (0 : ℚ) < -rem := by linarith [not_le.mp hrem]
      by_cases hmax : get_amount0_delta c t l ≤ -rem
      · simp only [hmax, if_true]
        exact ⟨hct, le_refl t⟩
      · simp only [hmax, if_false]
        unfold get_sqrt_price_from_output
        simp only [decide_eq_true_eq, hz, if_false]
        have hlt2 : -rem < get_amount0_delta c t l := not_le.mp hmax
        unfold get_amount0_delta at hlt2
        rw [lt_div_iff₀ (by positivity : (0 : ℚ) < c * t)] at hlt2
        have hD : (0 : ℚ) < l * q96 - -rem * c := by
          nlinarith [hlt2, hc, ht, mul_pos hl hq]
        constructor
        · rw [le_div_iff₀ hD]
          nlinarith [hy, sq_nonneg c]
        · rw [div_le_iff₀ hD]
          nlinarith [hlt2]

/-- The output cap of the floating-point step, as a reusable lemma: in
exact-output mode the amount out is at most the owed magnitude. -/
theorem f64Step_output_le (c t l rem f : ℚ) (h : rem < 0) :
    (f64ComputeSwapStep c t l rem f).amountOut ≤ -rem := by
  have hni : ¬ (0 ≤ rem) := not_le.mpr h
  unfold f64ComputeSwapStep
  dsimp only
  split_ifs
  all_goals first
    | exact le_refl _
    | (rename_i hx
       exact le_of_not_lt (fun hlt => hx ⟨hni, hlt⟩))

/-- When the exhausted flag is not set, the step reached the target
price exactly. -/
theorem f64Step_not_exhausted_next (c t l rem f : ℚ)
    (h : (f64ComputeSwapStep c t l rem f).exhausted = false) :
    (f64ComputeSwapStep c t l rem f).next = t := by
  unfold f64ComputeSwapStep f64StepPhase1 at h ⊢
  dsimp only at h ⊢
  split_ifs at h ⊢ <;> first | rfl | exact Bool.noConfusion h

/-- The downward bitmap search returns a tick at or below the current
tick. -/
theorem nextInit_down_le (bm : Bitmap) (tick spacing : ℤ) (hsp : 0 < spacing) :
    (nextInitializedTickWithinOneWord bm tick spacing true).1 ≤ tick := by
  have hkey : Int.ediv tick spacing * spacing ≤ tick := Int.ediv_mul_le tick (ne_of_gt hsp)
  unfold nextInitializedTickWithinOneWord
  rw [if_pos rfl]
  dsimp only
  split
  · rename_i m hm
    dsimp only
    have hle : (Int.ediv tick spacing - (((Int.emod (Int.ediv tick spacing) 256).toNat - m : ℕ) : ℤ)) * spacing
        ≤ Int.ediv tick spacing * spacing := by
      apply mul_le_mul_of_nonneg_right _ (le_of_lt hsp)
      omega
    exact le_trans hle hkey
  · dsimp only
    have hle : (Int.ediv tick spacing - ((Int.emod (Int.ediv tick spacing) 256).toNat : ℤ)) * spacing
        ≤ Int.ediv tick spacing * spacing := by
      apply mul_le_mul_of_nonneg_right _ (le_of_lt hsp)
      omega
    exact le_trans hle hkey

/-- The upward bitmap search returns a tick strictly above the current
tick. -/
theorem nextInit_up_gt (bm : Bitmap) (tick spacing : ℤ) (hsp : 0 < spacing) :
    tick < (nextInitializedTickWithinOneWord bm tick spacing false).1 := by
  have h2 : spacing * Int.ediv tick spacing + Int.emod tick spacing = tick :=
    Int.ediv_add_emod tick spacing
  have h3 : Int.emod tick spacing < spacing := Int.emod_lt_of_pos tick hsp
  have hkey : tick < (Int.ediv tick spacing + 1) * spacing := by nlinarith [h2, h3]
  unfold nextInitializedTickWithinOneWord
  rw [if_neg Bool.false_ne_true]
  dsimp only
  split
  · rename_i m hm
    dsimp only
    have hle : (Int.ediv tick spacing + 1) * spacing
        ≤ (Int.ediv tick spacing + 1 + ((m - (Int.emod (Int.ediv tick spacing + 1) 256).toNat : ℕ) : ℤ)) * spacing := by
      apply mul_le_mul_of_nonneg_right _ (le_of_lt hsp)
      omega
    exact lt_of_lt_of_le hkey hle
  · dsimp only
    have hle : (Int.ediv tick spacing + 1) * spacing
        ≤ (Int.ediv tick spacing + 1 + ((255 - (Int.emod (Int.ediv tick spacing + 1) 256).toNat : ℕ) : ℤ)) * spacing := by
      apply mul_le_mul_of_nonneg_right _ (le_of_lt hsp)
      omega
    exact lt_of_lt_of_le hkey hle

/-- The clamped downward candidate stays at or below the current tick
when the current tick is at or above the global minimum. -/
theorem clamp_down_le (tick raw : ℤ) (hmin : minTickConst ≤ tick) (hraw : raw ≤ tick) :
    clampTick raw ≤ tick := by
  unfold clampTick
  split_ifs <;> omega

/-- The clamped upward candidate stays strictly above the current tick
when the current tick is at most one below the global maximum. -/
theorem clamp_up_ge (tick raw : ℤ) (hmax : tick ≤ maxTickConst - 1) (hraw : tick < raw) :
    tick + 1 ≤ clampTick raw := by
  unfold clampTick
  split_ifs <;> omega

/-- Structure of a non-panicking f64 loop body execution: the new state
is the step result's price and exhausted flag, and the tick either
advanced past the boundary (price landed exactly on it) or is
unchanged. -/
theorem f64Body_cases (P : ℤ → ℚ) (bm : Bitmap) (ticks : TickList) (spacing : ℤ)
    (zfo : Bool) (limit : ℚ) (exactInput : Bool) (fee : ℚ) (s s' : F64State)
    (hbody : f64Body P bm ticks spacing zfo limit exactInput fee s = .next s') :
    s'.price = (f64ComputeSwapStep s.price
        (if (if zfo then P (clampTick (nextInitializedTickWithinOneWord bm s.tick spacing zfo).1) < limit
             else limit < P (clampTick (nextInitializedTickWithinOneWord bm s.tick spacing zfo).1))
         then limit
         else P (clampTick (nextInitializedTickWithinOneWord bm s.tick spacing zfo).1))
        s.liq s.rem fee).next ∧
    s'.exhausted = (f64ComputeSwapStep s.price
        (if (if zfo then P (clampTick (nextInitializedTickWithinOneWord bm s.tick spacing zfo).1) < limit
             else limit < P (clampTick (nextInitializedTickWithinOneWord bm s.tick spacing zfo).1))
         then limit
         else P (clampTick (nextInitializedTickWithinOneWord bm s.tick spacing zfo).1))
        s.liq s.rem fee).exhausted ∧
    ((s'.price = P (clampTick (nextInitializedTickWithinOneWord bm s.tick spacing zfo).1) ∧
      s'.tick = (if zfo then clampTick (nextInitializedTickWithinOneWord bm s.tick spacing zfo).1 - 1
                 else clampTick (nextInitializedTickWithinOneWord bm s.tick spacing zfo).1)) ∨
     (s'.price ≠ P (clampTick (nextInitializedTickWithinOneWord bm s.tick spacing zfo).1) ∧
      s'.tick = s.tick)) := by
  unfold f64Body at hbody
  simp only [] at hbody
  set tn := clampTick (nextInitializedTickWithinOneWord bm s.tick spacing zfo).1 with htn
  set b := P tn with hbdef
  set tgt := (if (if zfo then b < limit else limit < b) then limit else b) with htgt
  set r := f64ComputeSwapStep s.price tgt s.liq s.rem fee with hrdef
  by_cases hland : r.next = b
  · rw [if_pos hland] at hbody
    by_cases hinit : (nextInitializedTickWithinOneWord bm s.tick spacing zfo).2 = true
    · rw [if_pos hinit] at hbody
      cases hlk : List.lookup tn ticks with
      | none =>
        rw [hlk] at hbody
        exact F64BodyRes.noConfusion hbody
      | some ti =>
        rw [hlk] at hbody
        simp only [] at hbody
        cases hbody
        exact ⟨rfl, rfl, Or.inl ⟨hland, rfl⟩⟩
    · rw [if_neg hinit] at hbody
      cases hbody
      exact ⟨rfl, rfl, Or.inl ⟨hland, rfl⟩⟩
  · rw [if_neg hland] at hbody
    cases hbody
    exact ⟨rfl, rfl, Or.inr ⟨hland, rfl⟩⟩

/-- One non-panicking body execution of the selling loop: the price
does not increase, and either the tick-price link (with the global
lower tick bound) is preserved, or the next break test stops the
loop. -/
theorem f64Body_mono_down (P : ℤ → ℚ) (bm : Bitmap) (ticks : TickList) (spacing : ℤ)
    (limit : ℚ) (exactInput : Bool) (fee : ℚ)
    (hmono : ∀ a b : ℤ, a ≤ b → P a ≤ P b) (hppos : ∀ t : ℤ, 0 < P t)
    (hsp : 0 < spacing) (h0lim : 0 < limit) (hlimP : P minTickConst < limit)
    (hf0 : 0 ≤ fee) (hf1 : fee < 1) (s s' : F64State)
    (hng : ¬ f64Break true limit s)
    (hJ : P s.tick ≤ s.price) (hmin : minTickConst ≤ s.tick)
    (hbody : f64Body P bm ticks spacing true limit exactInput fee s = .next s') :
    s'.price ≤ s.price ∧
    ((P s'.tick ≤ s'.price ∧ minTickConst ≤ s'.tick) ∨ f64Break true limit s') := by
  have hcases := f64Body_cases P bm ticks spacing true limit exactInput fee s s' hbody
  unfold f64Break at hng
  rw [if_pos rfl] at hng
  push_neg at hng
  obtain ⟨hexh, hrem, hliq0, hpl⟩ := hng
  have hliq : (0 : ℚ) < s.liq := hliq0
  have hplim : limit < s.price := hpl
  set tn := clampTick (nextInitializedTickWithinOneWord bm s.tick spacing true).1 with htn
  have h_tn_le : tn ≤ s.tick :=
    clamp_down_le s.tick _ hmin (nextInit_down_le bm s.tick spacing hsp)
  have h_b_le : P tn ≤ s.price := le_trans (hmono _ _ h_tn_le) hJ
  simp only [eq_self_iff_true, if_true] at hcases
  set tgt := (if P tn < limit then limit else P tn) with htgt
  have h_t_le : tgt ≤ s.price := by
    rw [htgt]
    split_ifs
    · linarith
    · exact h_b_le
  have h_t_pos : (0 : ℚ) < tgt := by
    rw [htgt]
    split_ifs
    · exact h0lim
    · exact hppos tn
  have hbounds := f64Step_bounds_down s.price tgt s.liq s.rem fee h_t_le h_t_pos hliq hf0 hf1
  obtain ⟨hc1, hc2, hc3⟩ := hcases
  refine ⟨by rw [hc1]; exact hbounds.2, ?_⟩
  rcases hc3 with ⟨hpe, hte⟩ | ⟨hne, hte⟩
  · left
    have hnothit : ¬ (P tn < limit) := by
      intro hh
      have htl : tgt = limit := by
        rw [htgt, if_pos hh]
      have h1 : tgt ≤ s'.price := by
        rw [hc1]
        exact hbounds.1
      rw [htl, hpe] at h1
      linarith
    have htn_gt : minTickConst < tn := by
      by_contra hle
      push_neg at hle
      have h1 : P tn ≤ P minTickConst := hmono _ _ hle
      have h2 : limit ≤ P tn := le_of_not_lt hnothit
      linarith
    constructor
    · rw [hte, hpe]
      exact hmono _ _ (by omega)
    · rw [hte]
      omega
  · by_cases hex : s'.exhausted = true
    · right
      unfold f64Break
      exact Or.inl hex
    · have hexf : (f64ComputeSwapStep s.price tgt s.liq s.rem fee).exhausted = false := by
        rw [← hc2]
        exact Bool.eq_false_iff.mpr hex
      have hnt : (f64ComputeSwapStep s.price tgt s.liq s.rem fee).next = tgt :=
        f64Step_not_exhausted_next s.price tgt s.liq s.rem fee hexf
      have hhit : P tn < limit := by
        by_contra hh
        have htb : tgt = P tn := by
          rw [htgt, if_neg hh]
        apply hne
        rw [hc1, hnt, htb]
      have htl : tgt = limit := by
        rw [htgt, if_pos hhit]
      right
      unfold f64Break
      right; right; right
      rw [if_pos rfl]
      rw [hc1, hnt, htl]

/-- One non-panicking body execution of the buying loop: the price does
not decrease, and either the tick-price link (with the global upper
tick bound and positivity) is preserved, or the next break test stops
the loop. -/
theorem f64Body_mono_up (P : ℤ → ℚ) (bm : Bitmap) (ticks : TickList) (spacing : ℤ)
    (limit : ℚ) (exactInput : Bool) (fee : ℚ)
    (hmono : ∀ a b : ℤ, a ≤ b → P a ≤ P b) (hppos : ∀ t : ℤ, 0 < P t)
    (hsp : 0 < spacing) (hlimU : limit ≤ P maxTickConst)
    (hf0 : 0 ≤ fee) (hf1 : fee < 1) (s s' : F64State)
    (hng : ¬ f64Break false limit s)
    (hJ : s.price ≤ P (s.tick + 1)) (hmaxt : s.tick ≤ maxTickConst - 1)
    (hcpos : 0 < s.price)
    (hbody : f64Body P bm ticks spacing false limit exactInput fee s = .next s') :
    s.price ≤ s'.price ∧
    ((s'.price ≤ P (s'.tick + 1) ∧ s'.tick ≤ maxTickConst - 1 ∧ 0 < s'.price) ∨
      f64Break false limit s') := by
  have hcases := f64Body_cases P bm ticks spacing false limit exactInput fee s s' hbody
  unfold f64Break at hng
  rw [if_neg Bool.false_ne_true] at hng
  push_neg at hng
  obtain ⟨hexh, hrem, hliq0, hpl⟩ := hng
  set tn := clampTick (nextInitializedTickWithinOneWord bm s.tick spacing false).1 with htn
  have h_tn_ge : s.tick + 1 ≤ tn :=
    clamp_up_ge s.tick _ hmaxt (nextInit_up_gt bm s.tick spacing hsp)
  have h_b_ge : s.price ≤ P tn := le_trans hJ (hmono _ _ h_tn_ge)
  have hred : (if (false : Bool) then P tn < limit else limit < P tn) = (limit < P tn) :=
    if_neg Bool.false_ne_true
  simp only [hred] at hcases
  set tgt := (if limit < P tn then limit else P tn) with htgt
  have h_t_ge : s.price ≤ tgt := by
    rw [htgt]
    split_ifs
    · linarith
    · exact h_b_ge
  have hbounds := f64Step_bounds_up s.price tgt s.liq s.rem fee h_t_ge hcpos hliq0 hf0 hf1
  obtain ⟨hc1, hc2, hc3⟩ := hcases
  refine ⟨by rw [hc1]; exact hbounds.1, ?_⟩
  rcases hc3 with ⟨hpe, hte⟩ | ⟨hne, hte⟩
  · have hnothit : ¬ (limit < P tn) := by
      intro hh
      have htl : tgt = limit := by
        rw [htgt, if_pos hh]
      have h1 : s'.price ≤ tgt := by
        rw [hc1]
        exact hbounds.2
      rw [htl, hpe] at h1
      linarith
    by_cases hbl : limit ≤ P tn
    · right
      unfold f64Break
      right; right; right
      rw [if_neg Bool.false_ne_true, hpe]
      exact hbl
    · left
      push_neg at hbl
      have htn_lt : tn < maxTickConst := by
        by_contra hge
        push_neg at hge
        have h1 : P maxTickConst ≤ P tn := hmono _ _ hge
        linarith
      refine ⟨?_, by omega, ?_⟩
      · rw [hte, hpe]
        exact hmono _ _ (by omega)
      · rw [hpe]
        exact hppos tn
  · by_cases hex : s'.exhausted = true
    · right
      unfold f64Break
      exact Or.inl hex
    · have hexf : (f64ComputeSwapStep s.price tgt s.liq s.rem fee).exhausted = false := by
        rw [← hc2]
        exact Bool.eq_false_iff.mpr hex
      have hnt : (f64ComputeSwapStep s.price tgt s.liq s.rem fee).next = tgt :=
        f64Step_not_exhausted_next s.price tgt s.liq s.rem fee hexf
      have hhit : limit < P tn := by
        by_contra hh
        have htb : tgt = P tn := by
          rw [htgt, if_neg hh]
        apply hne
        rw [hc1, hnt, htb]
      have htl : tgt = limit := by
        rw [htgt, if_pos hhit]
      right
      unfold f64Break
      right; right; right
      rw [if_neg Bool.false_ne_true]
      rw [hc1, hnt, htl]

/-- Loop-level monotonicity, selling: from any state satisfying the
tick-price link (or already breaking), a completed loop never raises
the price. -/
theorem f64Loop_mono_down (P : ℤ → ℚ) (bm : Bitmap) (ticks : TickList) (spacing : ℤ)
    (limit : ℚ) (exactInput : Bool) (fee : ℚ)
    (hmono : ∀ a b : ℤ, a ≤ b → P a ≤ P b) (hppos : ∀ t : ℤ, 0 < P t)
    (hsp : 0 < spacing) (h0lim : 0 < limit) (hlimP : P minTickConst < limit)
    (hf0 : 0 ≤ fee) (hf1 : fee < 1) :
    ∀ (fuel : ℕ) (s s' : F64State),
      ((P s.tick ≤ s.price ∧ minTickConst ≤ s.tick) ∨ f64Break true limit s) →
      f64Loop P bm ticks spacing true limit exactInput fee fuel s = .done s' →
      s'.price ≤ s.price := by
  intro fuel
  induction fuel with
  | zero =>
    intro s s' hinv h
    rw [f64Loop] at h
    split at h
    · cases h
      exact le_refl _
    · exact F64LoopOut.noConfusion h
  | succ fuel ih =>
    intro s s' hinv h
    rw [f64Loop] at h
    split at h
    · cases h
      exact le_refl _
    · rename_i hnb
      cases hbody : f64Body P bm ticks spacing true limit exactInput fee s with
      | panic =>
        rw [hbody] at h
        exact F64LoopOut.noConfusion h
      | next s1 =>
        rw [hbody] at h
        simp only [] at h
        have hinv2 : P s.tick ≤ s.price ∧ minTickConst ≤ s.tick := by
          rcases hinv with h1 | h1
          · exact h1
          · exact absurd h1 hnb
        have hb := f64Body_mono_down P bm ticks spacing limit exactInput fee hmono hppos
          hsp h0lim hlimP hf0 hf1 s s1 hnb hinv2.1 hinv2.2 hbody
        have hrec := ih s1 s' hb.2 h
        linarith [hb.1]

/-- Loop-level monotonicity, buying: from any state satisfying the
tick-price link (or already breaking), a completed loop never lowers
the price. -/
theorem f64Loop_mono_up (P : ℤ → ℚ) (bm : Bitmap) (ticks : TickList) (spacing : ℤ)
    (limit : ℚ) (exactInput : Bool) (fee : ℚ)
    (hmono : ∀ a b : ℤ, a ≤ b → P a ≤ P b) (hppos : ∀ t : ℤ, 0 < P t)
    (hsp : 0 < spacing) (hlimU : limit ≤ P maxTickConst)
    (hf0 : 0 ≤ fee) (hf1 : fee < 1) :
    ∀ (fuel : ℕ) (s s' : F64State),
      ((s.price ≤ P (s.tick + 1) ∧ s.tick ≤ maxTickConst - 1 ∧ 0 < s.price) ∨
        f64Break false limit s) →
      f64Loop P bm ticks spacing false limit exactInput fee fuel s = .done s' →
      s.price ≤ s'.price := by
  intro fuel
  induction fuel with
  | zero =>
    intro s s' hinv h
    rw [f64Loop] at h
    split at h
    · cases h
      exact le_refl _
    · exact F64LoopOut.noConfusion h
  | succ fuel ih =>
    intro s s' hinv h
    rw [f64Loop] at h
    split at h
    · cases h
      exact le_refl _
    · rename_i hnb
      cases hbody : f64Body P bm ticks spacing false limit exactInput fee s with
      | panic =>
        rw [hbody] at h
        exact F64LoopOut.noConfusion h
      | next s1 =>
        rw [hbody] at h
        simp only [] at h
        have hinv2 : s.price ≤ P (s.tick + 1) ∧ s.tick ≤ maxTickConst - 1 ∧ 0 < s.price := by
          rcases hinv with h1 | h1
          · exact h1
          · exact absurd h1 hnb
        have hb := f64Body_mono_up P bm ticks spacing limit exactInput fee hmono hppos
          hsp hlimU hf0 hf1 s s1 hnb hinv2.1 hinv2.2.1 hinv2.2.2 hbody
        have hrec := ih s1 s' hb.2 h
        linarith [hb.1]

/-- Structure of a non-erroring, non-panicking integer loop body
execution: the boundary price and step result exist, the new price is
the step result's price, and the tick either advanced past the
boundary (price landed on it), was recomputed from the new price, or is
unchanged (price did not move). -/
theorem intSwapBody_cases (fns : IntFns) (bm : Bitmap) (ticks : TickList) (spacing : ℤ)
    (zfo : Bool) (limit : ℕ) (exactInput : Bool) (fee : ℕ) (s s' : IntState)
    (hbody : intSwapBody fns bm ticks spacing zfo limit exactInput fee s = .next s') :
    ∃ b r,
      fns.getSqrtRatioAtTick
        (clampTick (nextInitializedTickWithinOneWord bm s.tick spacing zfo).1) = .ok b ∧
      fns.computeSwapStep s.price (if (if zfo then b < limit else limit < b) then limit else b)
        s.liq s.rem fee = .ok r ∧
      s'.price = r.next ∧
      s'.rem = (if exactInput then s.rem - ((r.amountIn : ℤ) + r.feeAmount)
                else s.rem + (r.amountOut : ℤ)) ∧
      ((r.next = b ∧
        s'.tick = (if zfo then clampTick (nextInitializedTickWithinOneWord bm s.tick spacing zfo).1 - 1
                   else clampTick (nextInitializedTickWithinOneWord bm s.tick spacing zfo).1)) ∨
       (r.next ≠ b ∧ r.next ≠ s.price ∧
        ∃ t', fns.getTickAtSqrtRatio r.next = .ok t' ∧ s'.tick = t') ∨
       (r.next ≠ b ∧ r.next = s.price ∧ s'.tick = s.tick)) := by
  unfold intSwapBody at hbody
  simp only [] at hbody
  set tn := clampTick (nextInitializedTickWithinOneWord bm s.tick spacing zfo).1 with htn
  cases hg : fns.getSqrtRatioAtTick tn with
  | error e =>
    rw [hg] at hbody
    exact IntBodyRes.noConfusion hbody
  | ok b =>
    rw [hg] at hbody
    simp only [] at hbody
    cases hs : fns.computeSwapStep s.price (if (if zfo then b < limit else limit < b) then limit else b)
        s.liq s.rem fee with
    | error e =>
      rw [hs] at hbody
      exact IntBodyRes.noConfusion hbody
    | ok r =>
      rw [hs] at hbody
      simp only [] at hbody
      refine ⟨b, r, rfl, hs, ?_⟩
      by_cases hland : r.next = b
      · rw [if_pos hland] at hbody
        by_cases hinit : (nextInitializedTickWithinOneWord bm s.tick spacing zfo).2 = true
        · rw [if_pos hinit] at hbody
          cases hlk : List.lookup tn ticks with
          | none =>
            rw [hlk] at hbody
            exact IntBodyRes.noConfusion hbody
          | some ti =>
            rw [hlk] at hbody
            simp only [] at hbody
            cases had : addDelta s.liq (if zfo then -ti.l_net else ti.l_net) with
            | error e =>
              rw [had] at hbody
              exact IntBodyRes.noConfusion hbody
            | ok liq2 =>
              rw [had] at hbody
              simp only [] at hbody
              cases hbody
              exact ⟨rfl, rfl, Or.inl ⟨hland, rfl⟩⟩
        · rw [if_neg hinit] at hbody
          cases hbody
          exact ⟨rfl, rfl, Or.inl ⟨hland, rfl⟩⟩
      · rw [if_neg hland] at hbody
        by_cases hmove : r.next = s.price
        · rw [if_neg (by simp [hmove])] at hbody
          cases hbody
          exact ⟨rfl, rfl, Or.inr (Or.inr ⟨hland, hmove, rfl⟩)⟩
        · rw [if_pos (by simp [hmove])] at hbody
          cases ht : fns.getTickAtSqrtRatio r.next with
          | error e =>
            rw [ht] at hbody
            exact IntBodyRes.noConfusion hbody
          | ok t' =>
            rw [ht] at hbody
            simp only [] at hbody
            cases hbody
            exact ⟨rfl, rfl, Or.inr (Or.inl ⟨hland, hmove, t', rfl, rfl⟩)⟩

/-- One integer loop body execution when selling, under the spec's
contracts for the missing modules (step price between target and
current; boundary prices monotone in the tick; the tick recompute
inverse to the price function): the price does not increase and the
tick-price invariants are preserved. -/
theorem intBody_mono_down (fns : IntFns) (bm : Bitmap) (ticks : TickList) (spacing : ℤ)
    (limit : ℕ) (exactInput : Bool) (fee : ℕ)
    (hstep : ∀ c t l rem f r, fns.computeSwapStep c t l rem f = .ok r →
      t ≤ c → t ≤ r.next ∧ r.next ≤ c)
    (hP_mono : ∀ t1 t2 v1 v2, t1 ≤ t2 → fns.getSqrtRatioAtTick t1 = .ok v1 →
      fns.getSqrtRatioAtTick t2 = .ok v2 → v1 ≤ v2)
    (hPmin : fns.getSqrtRatioAtTick minTickConst = .ok minSqrtPriceX96)
    (hTinv : ∀ v t', fns.getTickAtSqrtRatio v = .ok t' →
      ∀ u w, u ≤ t' → fns.getSqrtRatioAtTick u = .ok w → w ≤ v)
    (hTmin : ∀ v t', fns.getTickAtSqrtRatio v = .ok t' → minTickConst ≤ t')
    (hsp : 0 < spacing) (hlim : minSqrtPriceX96 < limit)
    (s s' : IntState)
    (hg : intLoopGuard limit s)
    (hJ : ∀ u w, u ≤ s.tick → fns.getSqrtRatioAtTick u = .ok w → w ≤ s.price)
    (hmin : minTickConst ≤ s.tick) (hpl : limit ≤ s.price)
    (hbody : intSwapBody fns bm ticks spacing true limit exactInput fee s = .next s') :
    s'.price ≤ s.price ∧
    (∀ u w, u ≤ s'.tick → fns.getSqrtRatioAtTick u = .ok w → w ≤ s'.price) ∧
    minTickConst ≤ s'.tick ∧ limit ≤ s'.price := by
  obtain ⟨b, r, hgP, hstepEq, hprice, hremEq, hcase⟩ :=
    intSwapBody_cases fns bm ticks spacing true limit exactInput fee s s' hbody
  have hpl2 : limit < s.price := lt_of_le_of_ne hpl (Ne.symm hg.2)
  set tn := clampTick (nextInitializedTickWithinOneWord bm s.tick spacing true).1 with htn
  have h_tn_le : tn ≤ s.tick :=
    clamp_down_le s.tick _ hmin (nextInit_down_le bm s.tick spacing hsp)
  have h_b_le : b ≤ s.price := hJ tn b h_tn_le hgP
  simp only [eq_self_iff_true, if_true] at hstepEq
  set tgt := (if b < limit then limit else b) with htgt
  have h_t_le : tgt ≤ s.price := by
    rw [htgt]
    split_ifs
    · omega
    · exact h_b_le
  have h_t_ge : limit ≤ tgt := by
    rw [htgt]
    split_ifs with hh
    · exact le_refl _
    · omega
  have hbounds := hstep _ _ _ _ _ _ hstepEq h_t_le
  refine ⟨by rw [hprice]; exact hbounds.2, ?_⟩
  rcases hcase with ⟨hland, hte⟩ | ⟨hnl, hnm, t', htr, hte⟩ | ⟨hnl, hm, hte⟩
  · have hnothit : ¬ (b < limit) := by
      intro hh
      have htl : tgt = limit := by
        rw [htgt, if_pos hh]
      have h1 : limit ≤ r.next := by
        rw [← htl]
        exact hbounds.1
      omega
    have htn_gt : minTickConst < tn := by
      by_contra hle
      push_neg at hle
      have h1 : b ≤ minSqrtPriceX96 := hP_mono tn minTickConst b minSqrtPriceX96 hle hgP hPmin
      omega
    refine ⟨?_, by omega, ?_⟩
    · intro u w hu hw
      have h1 : w ≤ b := hP_mono u tn w b (by omega) hw hgP
      rw [hprice, hland]
      exact h1
    · rw [hprice, hland]
      omega
  · refine ⟨?_, by rw [hte]; exact hTmin _ _ htr, ?_⟩
    · intro u w hu hw
      rw [hprice]
      exact hTinv _ _ htr u w (by rw [← hte]; exact hu) hw
    · rw [hprice]
      have h1 : limit ≤ r.next := le_trans h_t_ge hbounds.1
      exact h1
  · rw [hte, hprice, hm]
    exact ⟨hJ, hmin, hpl⟩

/-- One integer loop body execution when buying, under the spec's
contracts for the missing modules: the price does not decrease and the
tick-price invariants are preserved. -/
theorem intBody_mono_up (fns : IntFns) (bm : Bitmap) (ticks : TickList) (spacing : ℤ)
    (limit : ℕ) (exactInput : Bool) (fee : ℕ)
    (hstep : ∀ c t l rem f r, fns.computeSwapStep c t l rem f = .ok r →
      c ≤ t → c ≤ r.next ∧ r.next ≤ t)
    (hP_mono : ∀ t1 t2 v1 v2, t1 ≤ t2 → fns.getSqrtRatioAtTick t1 = .ok v1 →
      fns.getSqrtRatioAtTick t2 = .ok v2 → v1 ≤ v2)
    (hPmax : fns.getSqrtRatioAtTick maxTickConst = .ok maxSqrtPriceX96)
    (hTinvU : ∀ v t', fns.getTickAtSqrtRatio v = .ok t' →
      ∀ u w, t' + 1 ≤ u → fns.getSqrtRatioAtTick u = .ok w → v ≤ w)
    (hTmax : ∀ v t', fns.getTickAtSqrtRatio v = .ok t' → t' ≤ maxTickConst - 1)
    (hsp : 0 < spacing) (hlimU : limit < maxSqrtPriceX96)
    (s s' : IntState)
    (hg : intLoopGuard limit s)
    (hJ : ∀ u w, s.tick + 1 ≤ u → fns.getSqrtRatioAtTick u = .ok w → s.price ≤ w)
    (hmaxt : s.tick ≤ maxTickConst - 1) (hpl : s.price ≤ limit)
    (hbody : intSwapBody fns bm ticks spacing false limit exactInput fee s = .next s') :
    s.price ≤ s'.price ∧
    (∀ u w, s'.tick + 1 ≤ u → fns.getSqrtRatioAtTick u = .ok w → s'.price ≤ w) ∧
    s'.tick ≤ maxTickConst - 1 ∧ s'.price ≤ limit := by
  obtain ⟨b, r, hgP, hstepEq, hprice, hremEq, hcase⟩ :=
    intSwapBody_cases fns bm ticks spacing false limit exactInput fee s s' hbody
  have hpl2 : s.price < limit := lt_of_le_of_ne hpl hg.2
  set tn := clampTick (nextInitializedTickWithinOneWord bm s.tick spacing false).1 with htn
  have h_tn_ge : s.tick + 1 ≤ tn :=
    clamp_up_ge s.tick _ hmaxt (nextInit_up_gt bm s.tick spacing hsp)
  have h_b_ge : s.price ≤ b := hJ tn b h_tn_ge hgP
  simp only [Bool.false_eq_true, if_false] at hstepEq
  set tgt := (if limit < b then limit else b) with htgt
  have h_t_ge : s.price ≤ tgt := by
    rw [htgt]
    split_ifs
    · omega
    · exact h_b_ge
  have h_t_le : tgt ≤ limit := by
    rw [htgt]
    split_ifs with hh
    · exact le_refl _
    · omega
  have hbounds := hstep _ _ _ _ _ _ hstepEq h_t_ge
  refine ⟨by rw [hprice]; exact hbounds.1, ?_⟩
  rcases hcase with ⟨hland, hte⟩ | ⟨hnl, hnm, t', htr, hte⟩ | ⟨hnl, hm, hte⟩
  · have hnothit : ¬ (limit < b) := by
      intro hh
      have htl : tgt = limit := by
        rw [htgt, if_pos hh]
      have h1 : r.next ≤ limit := by
        rw [← htl]
        exact hbounds.2
      omega
    have htn_lt : tn < maxTickConst := by
      by_contra hge
      push_neg at hge
      have h1 : maxSqrtPriceX96 ≤ b := hP_mono maxTickConst tn maxSqrtPriceX96 b hge hPmax hgP
      omega
    refine ⟨?_, by omega, ?_⟩
    · intro u w hu hw
      have h1 : b ≤ w := hP_mono tn u b w (by omega) hgP hw
      rw [hprice, hland]
      exact h1
    · rw [hprice, hland]
      omega
  · refine ⟨?_, by rw [hte]; exact hTmax _ _ htr, ?_⟩
    · intro u w hu hw
      rw [hprice]
      exact hTinvU _ _ htr u w (by rw [← hte]; exact hu) hw
    · rw [hprice]
      exact le_trans hbounds.2 h_t_le
  · rw [hte, hprice, hm]
    exact ⟨hJ, hmaxt, hpl⟩

/-- Integer loop-level monotonicity when selling, under the spec's
contracts for the missing modules. -/
theorem intLoop_mono_down (fns : IntFns) (bm : Bitmap) (ticks : TickList) (spacing : ℤ)
    (limit : ℕ) (exactInput : Bool) (fee : ℕ)
    (hstep : ∀ c t l rem f r, fns.computeSwapStep c t l rem f = .ok r →
      t ≤ c → t ≤ r.next ∧ r.next ≤ c)
    (hP_mono : ∀ t1 t2 v1 v2, t1 ≤ t2 → fns.getSqrtRatioAtTick t1 = .ok v1 →
      fns.getSqrtRatioAtTick t2 = .ok v2 → v1 ≤ v2)
    (hPmin : fns.getSqrtRatioAtTick minTickConst = .ok minSqrtPriceX96)
    (hTinv : ∀ v t', fns.getTickAtSqrtRatio v = .ok t' →
      ∀ u w, u ≤ t' → fns.getSqrtRatioAtTick u = .ok w → w ≤ v)
    (hTmin : ∀ v t', fns.getTickAtSqrtRatio v = .ok t' → minTickConst ≤ t')
    (hsp : 0 < spacing) (hlim : minSqrtPriceX96 < limit) :
    ∀ (fuel : ℕ) (s s' : IntState),
      (∀ u w, u ≤ s.tick → fns.getSqrtRatioAtTick u = .ok w → w ≤ s.price) →
      minTickConst ≤ s.tick → limit ≤ s.price →
      intSwapLoop fns bm ticks spacing true limit exactInput fee fuel s = .done s' →
      s'.price ≤ s.price := by
  intro fuel
  induction fuel with
  | zero =>
    intro s s' hJ hmin hpl h
    rw [intSwapLoop] at h
    split at h
    · exact IntLoopOut.noConfusion h
    · cases h
      exact le_refl _
  | succ fuel ih =>
    intro s s' hJ hmin hpl h
    rw [intSwapLoop] at h
    split at h
    · rename_i hgd
      cases hbody : intSwapBody fns bm ticks spacing true limit exactInput fee s with
      | err e =>
        rw [hbody] at h
        exact IntLoopOut.noConfusion h
      | panic =>
        rw [hbody] at h
        exact IntLoopOut.noConfusion h
      | next s1 =>
        rw [hbody] at h
        simp only [] at h
        have hb := intBody_mono_down fns bm ticks spacing limit exactInput fee hstep hP_mono
          hPmin hTinv hTmin hsp hlim s s1 hgd hJ hmin hpl hbody
        have hrec := ih s1 s' hb.2.1 hb.2.2.1 hb.2.2.2 h
        omega
    · cases h
      exact le_refl _

/-- Integer loop-level monotonicity when buying, under the spec's
contracts for the missing modules. -/
theorem intLoop_mono_up (fns : IntFns) (bm : Bitmap) (ticks : TickList) (spacing : ℤ)
    (limit : ℕ) (exactInput : Bool) (fee : ℕ)
    (hstep : ∀ c t l rem f r, fns.computeSwapStep c t l rem f = .ok r →
      c ≤ t → c ≤ r.next ∧ r.next ≤ t)
    (hP_mono : ∀ t1 t2 v1 v2, t1 ≤ t2 → fns.getSqrtRatioAtTick t1 = .ok v1 →
      fns.getSqrtRatioAtTick t2 = .ok v2 → v1 ≤ v2)
    (hPmax : fns.getSqrtRatioAtTick maxTickConst = .ok maxSqrtPriceX96)
    (hTinvU : ∀ v t', fns.getTickAtSqrtRatio v = .ok t' →
      ∀ u w, t' + 1 ≤ u → fns.getSqrtRatioAtTick u = .ok w → v ≤ w)
    (hTmax : ∀ v t', fns.getTickAtSqrtRatio v = .ok t' → t' ≤ maxTickConst - 1)
    (hsp : 0 < spacing) (hlimU : limit < maxSqrtPriceX96) :
    ∀ (fuel : ℕ) (s s' : IntState),
      (∀ u w, s.tick + 1 ≤ u → fns.getSqrtRatioAtTick u = .ok w → s.price ≤ w) →
      s.tick ≤ maxTickConst - 1 → s.price ≤ limit →
      intSwapLoop fns bm ticks spacing false limit exactInput fee fuel s = .done s' →
      s.price ≤ s'.price := by
  intro fuel
  induction fuel with
  | zero =>
    intro s s' hJ hmaxt hpl h
    rw [intSwapLoop] at h
    split at h
    · exact IntLoopOut.noConfusion h
    · cases h
      exact le_refl _
  | succ fuel ih =>
    intro s s' hJ hmaxt hpl h
    rw [intSwapLoop] at h
    split at h
    · rename_i hgd
      cases hbody : intSwapBody fns bm ticks spacing false limit exactInput fee s with
      | err e =>
        rw [hbody] at h
        exact IntLoopOut.noConfusion h
      | panic =>
        rw [hbody] at h
        exact IntLoopOut.noConfusion h
      | next s1 =>
        rw [hbody] at h
        simp only [] at h
        have hb := intBody_mono_up fns bm ticks spacing limit exactInput fee hstep hP_mono
          hPmax hTinvU hTmax hsp hlimU s s1 hgd hJ hmaxt hpl hbody
        have hrec := ih s1 s' hb.2.1 hb.2.2.1 hb.2.2.2 h
        omega
    · cases h
      exact le_refl _

/-- Counterexample for C6 as stated: a successful BUY call
(`zero_for_one = false`) of the floating-point variant on an empty
ticks map returns the default result (`f64_swap.rs` lines 60–62),
whose `sqrt_price_after` is `0` — strictly BELOW the positive starting
price `5` — so "for every successful swap call, buying never decreases
the square-root price" is false. -/
theorem c6_counterexample :
    f64Swap (fun _ => 0) [] [] 1 false 3 9 ⟨5, 0, 7⟩ 0 1 1 4 = .done ⟨0, 0, 0, 0, 0⟩ ∧
    (0 : ℚ) < 5 := by
  exact ⟨rfl, by norm_num⟩

/-- C6 (amended): price monotonicity.  (1)–(2): for every
floating-point step computation with positive prices and liquidity and
a fee rate in `[0, 1)`, selling (current at or above target) never
increases the price and buying never decreases it.  (3)–(4): for every
successful floating-point swap call whose tick/price parameter is
monotone and positive and whose snapshot satisfies the tick-price
link, the same holds end to end — for the buy direction only when the
ticks map is NONEMPTY, since the empty-ticks call successfully returns
the default result whose price 0 lies below any positive starting
price.  (5)–(6): for every successful integer swap call, under the
spec's contracts for the missing helper modules (step price between
current and target, boundary prices monotone, tick recompute inverse
to the price function), the same holds end to end. -/
theorem c6_price_monotonicity :
    (∀ c t l rem f : ℚ, t ≤ c → 0 < t → 0 < l → 0 ≤ f → f < 1 →
      (f64ComputeSwapStep c t l rem f).next ≤ c) ∧
    (∀ c t l rem f : ℚ, c ≤ t → 0 < c → 0 < l → 0 ≤ f → f < 1 →
      c ≤ (f64ComputeSwapStep c t l rem f).next) ∧
    (∀ (P : ℤ → ℚ) (ticks : TickList) (bm : Bitmap) (spacing : ℤ)
        (amt limit : ℚ) (slot0 : Slot0F) (fee f0 f1 : ℚ) (fuel : ℕ) (r : F64SwapResult),
      (∀ a b : ℤ, a ≤ b → P a ≤ P b) → (∀ t : ℤ, 0 < P t) →
      0 < spacing → 0 < limit → P minTickConst < limit → 0 ≤ fee → fee < 1 →
      P slot0.tick ≤ slot0.sqrt_price → minTickConst ≤ slot0.tick →
      f64Swap P ticks bm spacing true amt limit slot0 fee f0 f1 fuel = .done r →
      r.sqrt_price_after ≤ slot0.sqrt_price) ∧
    (∀ (P : ℤ → ℚ) (ticks : TickList) (bm : Bitmap) (spacing : ℤ)
        (amt limit : ℚ) (slot0 : Slot0F) (fee f0 f1 : ℚ) (fuel : ℕ) (r : F64SwapResult),
      (∀ a b : ℤ, a ≤ b → P a ≤ P b) → (∀ t : ℤ, 0 < P t) →
      0 < spacing → limit ≤ P maxTickConst → 0 ≤ fee → fee < 1 →
      slot0.sqrt_price ≤ P (slot0.tick + 1) → slot0.tick ≤ maxTickConst - 1 →
      0 < slot0.sqrt_price → ticks.length ≠ 0 →
      f64Swap P ticks bm spacing false amt limit slot0 fee f0 f1 fuel = .done r →
      slot0.sqrt_price ≤ r.sqrt_price_after) ∧
    (∀ (fns : IntFns) (ticks : TickList) (bm : Bitmap) (spacing : ℤ)
        (amt : ℤ) (limit : ℕ) (slot0 : Slot0I) (fee fuel : ℕ) (r : IntSwapResult),
      (∀ c t l rem f r1, fns.computeSwapStep c t l rem f = .ok r1 →
        t ≤ c → t ≤ r1.next ∧ r1.next ≤ c) →
      (∀ t1 t2 v1 v2, t1 ≤ t2 → fns.getSqrtRatioAtTick t1 = .ok v1 →
        fns.getSqrtRatioAtTick t2 = .ok v2 → v1 ≤ v2) →
      fns.getSqrtRatioAtTick minTickConst = .ok minSqrtPriceX96 →
      (∀ v t', fns.getTickAtSqrtRatio v = .ok t' →
        ∀ u w, u ≤ t' → fns.getSqrtRatioAtTick u = .ok w → w ≤ v) →
      (∀ v t', fns.getTickAtSqrtRatio v = .ok t' → minTickConst ≤ t') →
      0 < spacing →
      (∀ u w, u ≤ slot0.tick → fns.getSqrtRatioAtTick u = .ok w → w ≤ slot0.sqrt_price) →
      minTickConst ≤ slot0.tick →
      intSwap fns ticks bm spacing true amt limit slot0 fee fuel = .done r →
      r.sqrt_price_after ≤ slot0.sqrt_price) ∧
    (∀ (fns : IntFns) (ticks : TickList) (bm : Bitmap) (spacing : ℤ)
        (amt : ℤ) (limit : ℕ) (slot0 : Slot0I) (fee fuel : ℕ) (r : IntSwapResult),
      (∀ c t l rem f r1, fns.computeSwapStep c t l rem f = .ok r1 →
        c ≤ t → c ≤ r1.next ∧ r1.next ≤ t) →
      (∀ t1 t2 v1 v2, t1 ≤ t2 → fns.getSqrtRatioAtTick t1 = .ok v1 →
        fns.getSqrtRatioAtTick t2 = .ok v2 → v1 ≤ v2) →
      fns.getSqrtRatioAtTick maxTickConst = .ok maxSqrtPriceX96 →
      (∀ v t', fns.getTickAtSqrtRatio v = .ok t' →
        ∀ u w, t' + 1 ≤ u → fns.getSqrtRatioAtTick u = .ok w → v ≤ w) →
      (∀ v t', fns.getTickAtSqrtRatio v = .ok t' → t' ≤ maxTickConst - 1) →
      0 < spacing →
      (∀ u w, slot0.tick + 1 ≤ u → fns.getSqrtRatioAtTick u = .ok w → slot0.sqrt_price ≤ w) →
      slot0.tick ≤ maxTickConst - 1 →
      intSwap fns ticks bm spacing false amt limit slot0 fee fuel = .done r →
      slot0.sqrt_price ≤ r.sqrt_price_after) := by
  refine ⟨?_, ?_, ?_, ?_, ?_, ?_⟩
  · intro c t l rem f hct ht hl hf0 hf1
    exact (f64Step_bounds_down c t l rem f hct ht hl hf0 hf1).2
  · intro c t l rem f hct hc hl hf0 hf1
    exact (f64Step_bounds_up c t l rem f hct hc hl hf0 hf1).1
  · intro P ticks bm spacing amt limit slot0 fee f0 f1 fuel r
      hmono hppos hsp h0lim hlimP hf0 hf1 hJ0 hmin0 h
    unfold f64Swap at h
    split at h
    · cases h
      have : (0 : ℚ) < P slot0.tick := hppos _
      dsimp only
      linarith
    · simp only [] at h
      split at h
      · exact F64Out.noConfusion h
      · exact F64Out.noConfusion h
      · rename_i s1 hloop
        cases h
        exact f64Loop_mono_down P bm ticks spacing limit (decide (0 < amt)) fee
          hmono hppos hsp h0lim hlimP hf0 hf1 fuel _ s1 (Or.inl ⟨hJ0, hmin0⟩) hloop
  · intro P ticks bm spacing amt limit slot0 fee f0 f1 fuel r
      hmono hppos hsp hlimU hf0 hf1 hJ0 hmax0 hpos0 hne h
    unfold f64Swap at h
    split at h
    · rename_i hlen
      exact absurd hlen hne
    · simp only [] at h
      split at h
      · exact F64Out.noConfusion h
      · exact F64Out.noConfusion h
      · rename_i s1 hloop
        cases h
        exact f64Loop_mono_up P bm ticks spacing limit (decide (0 < amt)) fee
          hmono hppos hsp hlimU hf0 hf1 fuel _ s1 (Or.inl ⟨hJ0, hmax0, hpos0⟩) hloop
  · intro fns ticks bm spacing amt limit slot0 fee fuel r
      hstep hP_mono hPmin hTinv hTmin hsp hJ0 hmin0 h
    unfold intSwap at h
    split at h
    · exact IntOut.noConfusion h
    · split at h
      · exact IntOut.noConfusion h
      · split at h
        · exact IntOut.noConfusion h
        · split at h
          · exact IntOut.noConfusion h
          · rename_i h1 h2 h3 h4
            simp only [] at h
            split at h
            · exact IntOut.noConfusion h
            · exact IntOut.noConfusion h
            · exact IntOut.noConfusion h
            · rename_i s1 hloop
              cases h
              have hlim : minSqrtPriceX96 < limit := by omega
              have hpl : limit ≤ slot0.sqrt_price := by
                rw [not_and] at h3
                have := h3 rfl
                omega
              exact intLoop_mono_down fns bm ticks spacing limit (decide (0 < amt)) fee
                hstep hP_mono hPmin hTinv hTmin hsp hlim fuel _ s1 hJ0 hmin0 hpl hloop
  · intro fns ticks bm spacing amt limit slot0 fee fuel r
      hstep hP_mono hPmax hTinvU hTmax hsp hJ0 hmax0 h
    unfold intSwap at h
    split at h
    · exact IntOut.noConfusion h
    · split at h
      · exact IntOut.noConfusion h
      · split at h
        · exact IntOut.noConfusion h
        · split at h
          · exact IntOut.noConfusion h
          · rename_i h1 h2 h3 h4
            simp only [] at h
            split at h
            · exact IntOut.noConfusion h
            · exact IntOut.noConfusion h
            · exact IntOut.noConfusion h
            · rename_i s1 hloop
              cases h
              have hlimU : limit < maxSqrtPriceX96 := by omega
              have hpl : slot0.sqrt_price ≤ limit := by
                rw [not_and] at h4
                have := h4 (by simp)
                omega
              exact intLoop_mono_up fns bm ticks spacing limit (decide (0 < amt)) fee
                hstep hP_mono hPmax hTinvU hTmax hsp hlimU fuel _ s1 hJ0 hmax0 hpl hloop

/-- Witness for C6 at concrete inputs: a selling step from price 4
toward target 2 does not raise the price, and a buying step from 2
toward 4 does not lower it. -/
theorem c6_price_monotonicity_witness :
    (f64ComputeSwapStep 4 2 1 5 0).next ≤ 4 ∧ (2 : ℚ) ≤ (f64ComputeSwapStep 2 4 1 5 0).next :=
  ⟨c6_price_monotonicity.1 4 2 1 5 0 (by norm_num) (by norm_num) (by norm_num)
      (by norm_num) (by norm_num),
    c6_price_monotonicity.2.1 2 4 1 5 0 (by norm_num) (by norm_num) (by norm_num)
      (by norm_num) (by norm_num)⟩

/-! ## C9: termination of the integer swap loop -/

/-- One integer loop body execution when selling, under the spec's
step contracts ("never exceeding the target or the remaining amount",
"exhausted means the remaining amount was fully consumed"): either the
next loop test stops, or the current tick strictly decreased and all
invariants are preserved. -/
theorem intBody_term_down (fns : IntFns) (bm : Bitmap) (ticks : TickList) (spacing : ℤ)
    (limit : ℕ) (exactInput : Bool) (fee : ℕ)
    (hstep1 : ∀ c t l rem f r, fns.computeSwapStep c t l rem f = .ok r →
      t ≤ c → t ≤ r.next ∧ r.next ≤ c)
    (hstep2 : ∀ c t l rem f r, fns.computeSwapStep c t l rem f = .ok r → r.next ≠ t →
      (0 ≤ rem → (r.amountIn : ℤ) + r.feeAmount = rem) ∧
      (rem < 0 → (r.amountOut : ℤ) = -rem))
    (hstep3 : ∀ c t l rem f r, fns.computeSwapStep c t l rem f = .ok r →
      (0 ≤ rem → (r.amountIn : ℤ) + r.feeAmount ≤ rem) ∧
      (rem < 0 → (r.amountOut : ℤ) ≤ -rem))
    (hP_mono : ∀ t1 t2 v1 v2, t1 ≤ t2 → fns.getSqrtRatioAtTick t1 = .ok v1 →
      fns.getSqrtRatioAtTick t2 = .ok v2 → v1 ≤ v2)
    (hPmin : fns.getSqrtRatioAtTick minTickConst = .ok minSqrtPriceX96)
    (hsp : 0 < spacing) (hlim : minSqrtPriceX96 < limit)
    (s s' : IntState)
    (hg : intLoopGuard limit s)
    (hJ : ∀ u w, u ≤ s.tick → fns.getSqrtRatioAtTick u = .ok w → w ≤ s.price)
    (hmin : minTickConst ≤ s.tick) (hpl : limit ≤ s.price)
    (hremIn : exactInput = true → 0 ≤ s.rem) (hremOut : exactInput = false → s.rem ≤ 0)
    (hbody : intSwapBody fns bm ticks spacing true limit exactInput fee s = .next s') :
    (¬ intLoopGuard limit s') ∨
    (s'.tick < s.tick ∧
     (∀ u w, u ≤ s'.tick → fns.getSqrtRatioAtTick u = .ok w → w ≤ s'.price) ∧
     minTickConst ≤ s'.tick ∧ limit ≤ s'.price ∧
     (exactInput = true → 0 ≤ s'.rem) ∧ (exactInput = false → s'.rem ≤ 0)) := by
  obtain ⟨b, r, hgP, hstepEq, hprice, hremEq, hcase⟩ :=
    intSwapBody_cases fns bm ticks spacing true limit exactInput fee s s' hbody
  set tn := clampTick (nextInitializedTickWithinOneWord bm s.tick spacing true).1 with htn
  have h_tn_le : tn ≤ s.tick :=
    clamp_down_le s.tick _ hmin (nextInit_down_le bm s.tick spacing hsp)
  have h_b_le : b ≤ s.price := hJ tn b h_tn_le hgP
  have hpl2 : limit < s.price := lt_of_le_of_ne hpl (Ne.symm hg.2)
  simp only [eq_self_iff_true, if_true] at hstepEq
  set tgt := (if b < limit then limit else b) with htgt
  have h_t_le : tgt ≤ s.price := by
    rw [htgt]
    split_ifs
    · omega
    · exact h_b_le
  have h_t_ge : limit ≤ tgt := by
    rw [htgt]
    split_ifs with hh
    · exact le_refl _
    · omega
  have hbounds := hstep1 _ _ _ _ _ _ hstepEq h_t_le
  have hrs : (exactInput = true → 0 ≤ s'.rem) ∧ (exactInput = false → s'.rem ≤ 0) := by
    have h3 := hstep3 _ _ _ _ _ _ hstepEq
    constructor
    · intro he
      rw [hremEq, if_pos he]
      have := h3.1 (hremIn he)
      omega
    · intro he
      rw [hremEq, if_neg (by rw [he]; exact Bool.false_ne_true)]
      have hneg : s.rem < 0 := lt_of_le_of_ne (hremOut he) (hg.1)
      have := h3.2 hneg
      omega
  have hconsumed : r.next ≠ tgt → s'.rem = 0 := by
    intro hne
    have h2 := hstep2 _ _ _ _ _ _ hstepEq hne
    by_cases he : exactInput = true
    · rw [hremEq, if_pos he]
      have := h2.1 (hremIn he)
      omega
    · have he' : exactInput = false := by
        cases exactInput
        · rfl
        · exact absurd rfl he
      rw [hremEq, if_neg (by rw [he']; exact Bool.false_ne_true)]
      have hneg : s.rem < 0 := lt_of_le_of_ne (hremOut he') (hg.1)
      have := h2.2 hneg
      omega
  rcases hcase with ⟨hland, hte⟩ | ⟨hnl, hnm, t', htr, hte⟩ | ⟨hnl, hm, hte⟩
  · right
    simp only [eq_self_iff_true, if_true] at hte
    have hnothit : ¬ (b < limit) := by
      intro hh
      have htl : tgt = limit := by
        rw [htgt, if_pos hh]
      have h1 : limit ≤ r.next := by
        rw [← htl]
        exact hbounds.1
      omega
    have htn_gt : minTickConst < tn := by
      by_contra hle
      push_neg at hle
      have h1 : b ≤ minSqrtPriceX96 := hP_mono tn minTickConst b minSqrtPriceX96 hle hgP hPmin
      omega
    refine ⟨by omega, ?_, by omega, ?_, hrs.1, hrs.2⟩
    · intro u w hu hw
      have h1 : w ≤ b := hP_mono u tn w b (by omega) hw hgP
      rw [hprice, hland]
      exact h1
    · rw [hprice, hland]
      omega
  · left
    by_cases hEq : r.next = tgt
    · have hbl : b < limit := by
        by_contra hh
        rw [htgt, if_neg hh] at hEq
        exact hnl hEq
      rw [htgt, if_pos hbl] at hEq
      intro hg'
      exact hg'.2 (by rw [hprice, hEq])
    · intro hg'
      exact hg'.1 (hconsumed hEq)
  · left
    have hnt : r.next ≠ tgt := by
      rw [htgt]
      split_ifs with hh
      · intro hEq
        rw [hEq] at hm
        exact hg.2 hm.symm
      · exact hnl
    intro hg'
    exact hg'.1 (hconsumed hnt)

/-- One integer loop body execution when buying, under the spec's step
contracts: either the next loop test stops, or the current tick
strictly increased and all invariants are preserved. -/
theorem intBody_term_up (fns : IntFns) (bm : Bitmap) (ticks : TickList) (spacing : ℤ)
    (limit : ℕ) (exactInput : Bool) (fee : ℕ)
    (hstep1 : ∀ c t l rem f r, fns.computeSwapStep c t l rem f = .ok r →
      c ≤ t → c ≤ r.next ∧ r.next ≤ t)
    (hstep2 : ∀ c t l rem f r, fns.computeSwapStep c t l rem f = .ok r → r.next ≠ t →
      (0 ≤ rem → (r.amountIn : ℤ) + r.feeAmount = rem) ∧
      (rem < 0 → (r.amountOut : ℤ) = -rem))
    (hstep3 : ∀ c t l rem f r, fns.computeSwapStep c t l rem f = .ok r →
      (0 ≤ rem → (r.amountIn : ℤ) + r.feeAmount ≤ rem) ∧
      (rem < 0 → (r.amountOut : ℤ) ≤ -rem))
    (hP_mono : ∀ t1 t2 v1 v2, t1 ≤ t2 → fns.getSqrtRatioAtTick t1 = .ok v1 →
      fns.getSqrtRatioAtTick t2 = .ok v2 → v1 ≤ v2)
    (hPmax : fns.getSqrtRatioAtTick maxTickConst = .ok maxSqrtPriceX96)
    (hsp : 0 < spacing) (hlimU : limit < maxSqrtPriceX96)
    (s s' : IntState)
    (hg : intLoopGuard limit s)
    (hJ : ∀ u w, s.tick + 1 ≤ u → fns.getSqrtRatioAtTick u = .ok w → s.price ≤ w)
    (hmaxt : s.tick ≤ maxTickConst - 1) (hpl : s.price ≤ limit)
    (hremIn : exactInput = true → 0 ≤ s.rem) (hremOut : exactInput = false → s.rem ≤ 0)
    (hbody : intSwapBody fns bm ticks spacing false limit exactInput fee s = .next s') :
    (¬ intLoopGuard limit s') ∨
    (s.tick < s'.tick ∧
     (∀ u w, s'.tick + 1 ≤ u → fns.getSqrtRatioAtTick u = .ok w → s'.price ≤ w) ∧
     s'.tick ≤ maxTickConst - 1 ∧ s'.price ≤ limit ∧
     (exactInput = true → 0 ≤ s'.rem) ∧ (exactInput = false → s'.rem ≤ 0)) := by
  obtain ⟨b, r, hgP, hstepEq, hprice, hremEq, hcase⟩ :=
    intSwapBody_cases fns bm ticks spacing false limit exactInput fee s s' hbody
  set tn := clampTick (nextInitializedTickWithinOneWord bm s.tick spacing false).1 with htn
  have h_tn_ge : s.tick + 1 ≤ tn :=
    clamp_up_ge s.tick _ hmaxt (nextInit_up_gt bm s.tick spacing hsp)
  have h_b_ge : s.price ≤ b := hJ tn b h_tn_ge hgP
  have hpl2 : s.price < limit := lt_of_le_of_ne hpl hg.2
  simp only [Bool.false_eq_true, if_false] at hstepEq
  set tgt := (if limit < b then limit else b) with htgt
  have h_t_ge : s.price ≤ tgt := by
    rw [htgt]
    split_ifs
    · omega
    · exact h_b_ge
  have h_t_le : tgt ≤ limit := by
    rw [htgt]
    split_ifs with hh
    · exact le_refl _
    · omega
  have hbounds := hstep1 _ _ _ _ _ _ hstepEq h_t_ge
  have hrs : (exactInput = true → 0 ≤ s'.rem) ∧ (exactInput = false → s'.rem ≤ 0) := by
    have h3 := hstep3 _ _ _ _ _ _ hstepEq
    constructor
    · intro he
      rw [hremEq, if_pos he]
      have := h3.1 (hremIn he)
      omega
    · intro he
      rw [hremEq, if_neg (by rw [he]; exact Bool.false_ne_true)]
      have hneg : s.rem < 0 := lt_of_le_of_ne (hremOut he) (hg.1)
      have := h3.2 hneg
      omega
  have hconsumed : r.next ≠ tgt → s'.rem = 0 := by
    intro hne
    have h2 := hstep2 _ _ _ _ _ _ hstepEq hne
    by_cases he : exactInput = true
    · rw [hremEq, if_pos he]
      have := h2.1 (hremIn he)
      omega
    · have he' : exactInput = false := by
        cases exactInput
        · rfl
        · exact absurd rfl he
      rw [hremEq, if_neg (by rw [he']; exact Bool.false_ne_true)]
      have hneg : s.rem < 0 := lt_of_le_of_ne (hremOut he') (hg.1)
      have := h2.2 hneg
      omega
  rcases hcase with ⟨hland, hte⟩ | ⟨hnl, hnm, t', htr, hte⟩ | ⟨hnl, hm, hte⟩
  · right
    simp only [Bool.false_eq_true, if_false] at hte
    have hnothit : ¬ (limit < b) := by
      intro hh
      have htl : tgt = limit := by
        rw [htgt, if_pos hh]
      have h1 : r.next ≤ limit := by
        rw [← htl]
        exact hbounds.2
      omega
    have htn_lt : tn < maxTickConst := by
      by_contra hge
      push_neg at hge
      have h1 : maxSqrtPriceX96 ≤ b := hP_mono maxTickConst tn maxSqrtPriceX96 b hge hPmax hgP
      omega
    refine ⟨by omega, ?_, by omega, ?_, hrs.1, hrs.2⟩
    · intro u w hu hw
      have h1 : b ≤ w := hP_mono tn u b w (by omega) hgP hw
      rw [hprice, hland]
      exact h1
    · rw [hprice, hland]
      omega
  · left
    by_cases hEq : r.next = tgt
    · have hbl : limit < b := by
        by_contra hh
        rw [htgt, if_neg hh] at hEq
        exact hnl hEq
      rw [htgt, if_pos hbl] at hEq
      intro hg'
      exact hg'.2 (by rw [hprice, hEq])
    · intro hg'
      exact hg'.1 (hconsumed hEq)
  · left
    have hnt : r.next ≠ tgt := by
      rw [htgt]
      split_ifs with hh
      · intro hEq
        rw [hEq] at hm
        exact hg.2 hm.symm
      · exact hnl
    intro hg'
    exact hg'.1 (hconsumed hnt)

/-- Counterexample for C9 as stated: with the spec-modelled integer step
math, an exact-input sell over an EMPTY tick bitmap — so the number of
initialized ticks between the starting tick and the price-limit tick is
zero, making the claimed iteration bound zero — still needs loop
iterations: with fuel 0 the loop runs out of fuel, while the same call
terminates within 3 iterations.  Word-edge (uninitialized) boundaries
consume iterations that the initialized-tick count does not account
for. -/
theorem c9_counterexample :
    (∀ w, List.lookup w ([] : Bitmap) = none) ∧
    intSwap c8Fns [(0, ⟨0, 0, 0⟩)] [] 1 true 10 (2 ^ 79) ⟨2 ^ 80, 2 ^ 96, 5⟩ 3000 0 =
      .outOfFuel ∧
    intSwap c8Fns [(0, ⟨0, 0, 0⟩)] [] 1 true 10 (2 ^ 79) ⟨2 ^ 80, 2 ^ 96, 5⟩ 3000 3 ≠
      .outOfFuel := by
  refine ⟨fun w => rfl, by decide, by decide⟩

/-- C9 (amended): under the spec's contracts for the missing helper
modules — the step price lies between the current price and the target,
amounts charged never exceed the remaining budget and consume it
entirely whenever the step stopped short of the target, the tick-price
map is monotone and maps the extreme ticks to the extreme square-root
prices — the integer swap loop terminates (never runs out of fuel) once
the fuel exceeds the tick distance from the starting tick to the
corresponding extreme tick, in both trade directions.  The bound is the
full tick span, not the number of initialized ticks: every iteration
either ends the loop or moves the current tick strictly toward the
limit by at least one, also across uninitialized word-edge
boundaries. -/
theorem c9_termination (fns : IntFns) (bm : Bitmap) (ticks : TickList) (spacing : ℤ)
    (limit : ℕ) (exactInput : Bool) (fee : ℕ)
    (hstepD : ∀ c t l rem f r, fns.computeSwapStep c t l rem f = .ok r →
      t ≤ c → t ≤ r.next ∧ r.next ≤ c)
    (hstepU : ∀ c t l rem f r, fns.computeSwapStep c t l rem f = .ok r →
      c ≤ t → c ≤ r.next ∧ r.next ≤ t)
    (hstep2 : ∀ c t l rem f r, fns.computeSwapStep c t l rem f = .ok r → r.next ≠ t →
      (0 ≤ rem → (r.amountIn : ℤ) + r.feeAmount = rem) ∧
      (rem < 0 → (r.amountOut : ℤ) = -rem))
    (hstep3 : ∀ c t l rem f r, fns.computeSwapStep c t l rem f = .ok r →
      (0 ≤ rem → (r.amountIn : ℤ) + r.feeAmount ≤ rem) ∧
      (rem < 0 → (r.amountOut : ℤ) ≤ -rem))
    (hP_mono : ∀ t1 t2 v1 v2, t1 ≤ t2 → fns.getSqrtRatioAtTick t1 = .ok v1 →
      fns.getSqrtRatioAtTick t2 = .ok v2 → v1 ≤ v2)
    (hPmin : fns.getSqrtRatioAtTick minTickConst = .ok minSqrtPriceX96)
    (hPmax : fns.getSqrtRatioAtTick maxTickConst = .ok maxSqrtPriceX96)
    (hsp : 0 < spacing) (hlim : minSqrtPriceX96 < limit) (hlimU : limit < maxSqrtPriceX96) :
    (∀ fuel s, (∀ u w, u ≤ s.tick → fns.getSqrtRatioAtTick u = .ok w → w ≤ s.price) →
      minTickConst ≤ s.tick → limit ≤ s.price →
      (exactInput = true → 0 ≤ s.rem) → (exactInput = false → s.rem ≤ 0) →
      (s.tick - minTickConst).toNat < fuel →
      intSwapLoop fns bm ticks spacing true limit exactInput fee fuel s ≠ .outOfFuel) ∧
    (∀ fuel s, (∀ u w, s.tick + 1 ≤ u → fns.getSqrtRatioAtTick u = .ok w → s.price ≤ w) →
      s.tick ≤ maxTickConst - 1 → s.price ≤ limit →
      (exactInput = true → 0 ≤ s.rem) → (exactInput = false → s.rem ≤ 0) →
      (maxTickConst - s.tick).toNat < fuel →
      intSwapLoop fns bm ticks spacing false limit exactInput fee fuel s ≠ .outOfFuel) := by
  constructor
  · intro fuel
    induction fuel with
    | zero =>
      intro s hJ hmin hpl hrI hrO hb
      exact absurd hb (Nat.not_lt_zero _)
    | succ fuel ih =>
      intro s hJ hmin hpl hrI hrO hb
      by_cases hg : intLoopGuard limit s
      · rw [intSwapLoop, if_pos hg]
        cases hbody : intSwapBody fns bm ticks spacing true limit exactInput fee s with
        | err e => exact fun hcon => IntLoopOut.noConfusion hcon
        | panic => exact fun hcon => IntLoopOut.noConfusion hcon
        | next s' =>
          show intSwapLoop fns bm ticks spacing true limit exactInput fee fuel s' ≠ .outOfFuel
          rcases intBody_term_down fns bm ticks spacing limit exactInput fee
              hstepD hstep2 hstep3 hP_mono hPmin hsp hlim s s' hg hJ hmin hpl hrI hrO hbody with
            hstop | ⟨hlt, hJ', hmin', hpl', hrI', hrO'⟩
          · rw [intSwapLoop_stop fns bm ticks spacing true limit exactInput fee s' hstop]
            exact fun hcon => IntLoopOut.noConfusion hcon
          · exact ih s' hJ' hmin' hpl' hrI' hrO' (by omega)
      · rw [intSwapLoop_stop fns bm ticks spacing true limit exactInput fee s hg]
        exact fun hcon => IntLoopOut.noConfusion hcon
  · intro fuel
    induction fuel with
    | zero =>
      intro s hJ hmaxt hpl hrI hrO hb
      exact absurd hb (Nat.not_lt_zero _)
    | succ fuel ih =>
      intro s hJ hmaxt hpl hrI hrO hb
      by_cases hg : intLoopGuard limit s
      · rw [intSwapLoop, if_pos hg]
        cases hbody : intSwapBody fns bm ticks spacing false limit exactInput fee s with
        | err e => exact fun hcon => IntLoopOut.noConfusion hcon
        | panic => exact fun hcon => IntLoopOut.noConfusion hcon
        | next s' =>
          show intSwapLoop fns bm ticks spacing false limit exactInput fee fuel s' ≠ .outOfFuel
          rcases intBody_term_up fns bm ticks spacing limit exactInput fee
              hstepU hstep2 hstep3 hP_mono hPmax hsp hlimU s s' hg hJ hmaxt hpl hrI hrO hbody with
            hstop | ⟨hlt, hJ', hmaxt', hpl', hrI', hrO'⟩
          · rw [intSwapLoop_stop fns bm ticks spacing false limit exactInput fee s' hstop]
            exact fun hcon => IntLoopOut.noConfusion hcon
          · exact ih s' hJ' hmaxt' hpl' hrI' hrO' (by omega)
      · rw [intSwapLoop_stop fns bm ticks spacing false limit exactInput fee s hg]
        exact fun hcon => IntLoopOut.noConfusion hcon

/-- Witness for the termination theorem: a concrete sell from the
minimum tick with the contract-satisfying helper instantiation finishes
with fuel 1. -/
theorem c9_termination_witness :
    intSwapLoop termFns [] [] 1 true (minSqrtPriceX96 + 1) true 0 1
      ⟨7, 0, maxSqrtPriceX96, minTickConst, 5⟩ ≠ IntLoopOut.outOfFuel := by
  refine (c9_termination termFns [] [] 1 (minSqrtPriceX96 + 1) true 0
      ?_ ?_ ?_ ?_ ?_ (by rfl) (by rfl) (by decide) (by decide) (by decide)).1 1
      ⟨7, 0, maxSqrtPriceX96, minTickConst, 5⟩ ?_ (le_refl _) (by decide)
      (fun _ => by decide) (fun h => Bool.noConfusion h) (by decide)
  · intro c t l rem f r h ht
    cases h
    exact ⟨le_refl _, ht⟩
  · intro c t l rem f r h ht
    cases h
    exact ⟨ht, le_refl _⟩
  · intro c t l rem f r h hne
    cases h
    exact absurd rfl hne
  · intro c t l rem f r h
    cases h
    constructor
    · intro h1
      dsimp only
      omega
    · intro h1
      dsimp only
      omega
  · intro t1 t2 v1 v2 h12 h1 h2
    simp only [termFns] at h1 h2
    cases h1
    cases h2
    split_ifs <;> first | decide | omega
  · intro u w hu hw
    simp only [termFns] at hw
    cases hw
    split_ifs <;> decide
